import Mathlib

/-!
Verification development for the persistent answer-cache engine of the
LLM cached conversation agent
(custom_components/llm_cached_conversation_agent/agent.py).

The engine is shallowly embedded: the in-memory cache dict becomes an
insertion-ordered association list, file contents become lists of
characters (a missing file is Option.none), and the request handler
async_process becomes a pure function parameterised by the answer the
generation backend would return.  The JSON layer (json.dumps with
indent 2 and ensure_ascii False, json.loads) is modelled by an explicit
serializer and a recursive-descent parser over characters.
-/

namespace CacheAgent

/-- One cached question/answer record, mirroring the CacheItem dataclass. -/
structure CacheItem where
  q : String
  q_norm : String
  a : String
  ts : String
  aliases : List String
deriving DecidableEq, Repr

/-- Whitespace predicate used by the normalisation step.  Mirrors the set of
ASCII characters on which Python str.split breaks words. -/
def pySpace (c : Char) : Bool :=
  c = ' ' || c = '\t' || c = '\n' || c = '\r' || c = '\x0b' || c = '\x0c'

/-- Mirrors normalize: lower-case, then collapse whitespace runs to single
spaces and drop leading/trailing whitespace (join of str.split). -/
def normalize (text : String) : String :=
  String.mk (List.intercalate [' ']
    (((text.toList.map Char.toLower).splitOnP pySpace).filter (fun w => !w.isEmpty)))

/-- Mirrors the module function that drops punctuation: keep alphanumeric
characters and whitespace only. -/
def stripPunct (text : String) : String :=
  String.mk (text.toList.filter (fun c => c.isAlphanum || pySpace c))

/-- The in-memory cache self._cache: a Python dict from normalized query to
record, modelled as an insertion-ordered association list. -/
abbrev Cache := List (String × CacheItem)

/-- Python dict lookup (self._cache.get / membership test). -/
def dictGet (c : Cache) (k : String) : Option CacheItem :=
  (List.find? (fun p => p.1 == k) c).map (fun p => p.2)

/-- Python dict assignment: overwriting an existing key keeps its position,
a fresh key is appended at the end (insertion order semantics). -/
def dictInsert (c : Cache) (k : String) (v : CacheItem) : Cache :=
  if List.any c (fun p => p.1 == k) then
    List.map (fun p => if p.1 == k then (k, v) else p) c
  else
    c ++ [(k, v)]

/-- The punctuation-insensitive linear scan of async_process: first record
whose stripped primary form or stripped alias equals the stripped query. -/
def fuzzyFind (c : Cache) (qnCmp : String) : Option (String × CacheItem) :=
  List.find? (fun p =>
    stripPunct p.2.q_norm == qnCmp ||
    List.any p.2.aliases (fun al => stripPunct al == qnCmp)) c

/-! ## JSON values -/

/-- JSON values.  Numbers are modelled as integers: the store format only
ever contains the integer 1 (the schema version). -/
inductive Json where
  | null
  | bool (b : Bool)
  | num (n : Int)
  | str (s : String)
  | arr (xs : List Json)
  | obj (kvs : List (String × Json))

/-- Lookup of a key in a parsed JSON object (Python dict.get, returning
None when the key is missing). -/
def jlookup (kvs : List (String × Json)) (k : String) : Option Json :=
  (List.find? (fun p => p.1 == k) kvs).map (fun p => p.2)

/-- Python truthiness of a decoded JSON value. -/
def jsonFalsy : Json → Bool
  | .null => true
  | .bool b => !b
  | .num n => n == 0
  | .str s => s == ""
  | .arr xs => xs.isEmpty
  | .obj kvs => kvs.isEmpty

/-- data.get(key, default): succeeds only on objects; on any other value the
Python attribute access raises (folded into the caller's except clause). -/
def pyGetD (j : Json) (k : String) (dflt : Json) : Option Json :=
  match j with
  | .obj kvs => some ((jlookup kvs k).getD dflt)
  | _ => none

/-- Whether a decoded value may be used as a Python set element (hashable).
Lists and dicts raise TypeError when added to a set. -/
def jsonHashable : Json → Bool
  | .arr _ => false
  | .obj _ => false
  | _ => true

/-- Equality of scalar JSON values, used for set membership of q_norm
fingerprints during a merge.  The merge only ever compares values that
passed the hashability guard, so composite values never reach this. -/
def scalarEq : Json → Json → Bool
  | .null, .null => true
  | .bool a, .bool b => a == b
  | .num a, .num b => a == b
  | .str a, .str b => a == b
  | _, _ => false

/-! ## JSON serialisation (json.dumps, ensure_ascii False, indent 2) -/

/-- Hexadecimal digit characters (lower case, as emitted by json.dumps). -/
def hexDig (n : Nat) : Char :=
  if n < 10 then Char.ofNat (48 + n) else Char.ofNat (87 + n)

/-- Escape of one character inside a JSON string literal, mirroring the
ESCAPE_DCT table used by json.dumps with ensure_ascii False: backslash,
double quote and the control characters are escaped, everything else is
emitted verbatim. -/
def escChar (c : Char) : List Char :=
  if c = '"' then ['\\', '"']
  else if c = '\\' then ['\\', '\\']
  else if c = '\x08' then ['\\', 'b']
  else if c = '\t' then ['\\', 't']
  else if c = '\n' then ['\\', 'n']
  else if c = '\x0c' then ['\\', 'f']
  else if c = '\r' then ['\\', 'r']
  else if c.toNat < 32 then
    ['\\', 'u', '0', '0', hexDig (c.toNat / 16), hexDig (c.toNat % 16)]
  else [c]

def escStr : List Char → List Char
  | [] => []
  | c :: cs => escChar c ++ escStr cs

/-- A JSON string literal: opening quote, escaped body, closing quote. -/
def strLit (s : String) : List Char :=
  '"' :: (escStr s.toList ++ ['"'])

/-- Indentation produced by json.dumps with indent 2. -/
def indent (lvl : Nat) : List Char :=
  List.replicate (2 * lvl) ' '

/-- General JSON serializer mirroring json.dumps(..., ensure_ascii False,
indent 2).  The fuel argument only bounds the nesting depth that can be
printed; every call site supplies fuel exceeding the depth of its value. -/
def dumpJ : Nat → Nat → Json → List Char
  | 0, _, _ => []
  | _ + 1, _, .null => ['n', 'u', 'l', 'l']
  | _ + 1, _, .bool true => ['t', 'r', 'u', 'e']
  | _ + 1, _, .bool false => ['f', 'a', 'l', 's', 'e']
  | _ + 1, _, .num n => (toString n).toList
  | _ + 1, _, .str s => strLit s
  | _ + 1, _, .arr [] => ['[', ']']
  | fuel + 1, lvl, .arr (x :: xs) =>
    '[' :: '\n' ::
      (List.intercalate [',', '\n']
        ((x :: xs).map (fun y => indent (lvl + 1) ++ dumpJ fuel (lvl + 1) y)) ++
       ('\n' :: (indent lvl ++ [']'])))
  | _ + 1, _, .obj [] => ['{', '}']
  | fuel + 1, lvl, .obj (m :: ms) =>
    '{' :: '\n' ::
      (List.intercalate [',', '\n']
        ((m :: ms).map (fun p =>
          indent (lvl + 1) ++ strLit p.1 ++ (':' :: ' ' :: dumpJ fuel (lvl + 1) p.2))) ++
       ('\n' :: (indent lvl ++ ['}'])))

/-! ## Specialised store serialisation

_save_cache serialises the fixed shape
obj [version 1, items [record objects]]; the record objects list the five
dataclass fields in declaration order (vars of a dataclass).  The encoder
below spells out exactly the characters json.dumps produces on that shape.
-/

/-- One object member line: indentation, quoted key, colon, space, value. -/
def memberLine (lvl : Nat) (key : List Char) (val : List Char) : List Char :=
  indent lvl ++ ('"' :: (key ++ ('"' :: ':' :: ' ' :: val)))

/-- Serialisation of the aliases list of a record. -/
def encAliasLines (lvl : Nat) : List String → List Char
  | [] => []
  | [a] => indent lvl ++ strLit a
  | a :: rest => indent lvl ++ strLit a ++ (',' :: '\n' :: encAliasLines lvl rest)

def encAliases (lvl : Nat) : List String → List Char
  | [] => ['[', ']']
  | a :: rest =>
    '[' :: '\n' :: (encAliasLines (lvl + 1) (a :: rest) ++ ('\n' :: (indent lvl ++ [']'])))

/-- Serialisation of one record object, fields in dataclass order. -/
def encItem (lvl : Nat) (ci : CacheItem) : List Char :=
  '{' :: '\n' ::
    (memberLine (lvl + 1) ['q'] (strLit ci.q) ++ (',' :: '\n' ::
     (memberLine (lvl + 1) ['q', '_', 'n', 'o', 'r', 'm'] (strLit ci.q_norm) ++ (',' :: '\n' ::
      (memberLine (lvl + 1) ['a'] (strLit ci.a) ++ (',' :: '\n' ::
       (memberLine (lvl + 1) ['t', 's'] (strLit ci.ts) ++ (',' :: '\n' ::
        (memberLine (lvl + 1) ['a', 'l', 'i', 'a', 's', 'e', 's'] (encAliases (lvl + 1) ci.aliases) ++
         ('\n' :: (indent lvl ++ ['}'])))))))))))

def encItemLines (lvl : Nat) : List CacheItem → List Char
  | [] => []
  | [ci] => indent lvl ++ encItem lvl ci
  | ci :: rest => indent lvl ++ encItem lvl ci ++ (',' :: '\n' :: encItemLines lvl rest)

def encItemsArr (lvl : Nat) : List CacheItem → List Char
  | [] => ['[', ']']
  | ci :: rest =>
    '[' :: '\n' :: (encItemLines (lvl + 1) (ci :: rest) ++ ('\n' :: (indent lvl ++ [']'])))

/-- The exact payload json.dumps produces for the persisted store
(version 1, items in cache order). -/
def encodeStore (items : List CacheItem) : List Char :=
  '{' :: '\n' ::
    (memberLine 1 ['v', 'e', 'r', 's', 'i', 'o', 'n'] ['1'] ++ (',' :: '\n' ::
     (memberLine 1 ['i', 't', 'e', 'm', 's'] (encItemsArr 1 items) ++
      ('\n' :: ['}']))))

/-- The JSON value corresponding to one serialised record. -/
def jsonOfItem (ci : CacheItem) : Json :=
  .obj [("q", .str ci.q), ("q_norm", .str ci.q_norm), ("a", .str ci.a),
        ("ts", .str ci.ts), ("aliases", .arr (ci.aliases.map Json.str))]

/-- The JSON value corresponding to the serialised store. -/
def jsonOfStore (items : List CacheItem) : Json :=
  .obj [("version", .num 1), ("items", .arr (items.map jsonOfItem))]

/-! ## JSON parsing (json.loads) -/

/-- JSON interelement whitespace. -/
def jsonWs (c : Char) : Bool :=
  c = ' ' || c = '\t' || c = '\n' || c = '\r'

def skipWs : List Char → List Char
  | [] => []
  | c :: cs => if jsonWs c then skipWs cs else c :: cs

def hexVal (c : Char) : Option Nat :=
  if '0' ≤ c ∧ c ≤ '9' then some (c.toNat - 48)
  else if 'a' ≤ c ∧ c ≤ 'f' then some (c.toNat - 87)
  else if 'A' ≤ c ∧ c ≤ 'F' then some (c.toNat - 55)
  else none

/-- Decoding table for the short backslash escapes of JSON strings. -/
def escTable (e : Char) : Option Char :=
  if e = '"' then some '"'
  else if e = '\\' then some '\\'
  else if e = '/' then some '/'
  else if e = 'b' then some '\x08'
  else if e = 'f' then some '\x0c'
  else if e = 'n' then some '\n'
  else if e = 'r' then some '\r'
  else if e = 't' then some '\t'
  else none

/-- Body of a JSON string literal after the opening quote: stops at the
closing quote, decodes escapes, rejects unescaped control characters
(json.loads strict mode). -/
def parseStrBody : List Char → Option (List Char × List Char)
  | [] => none
  | '"' :: rest => some ([], rest)
  | '\\' :: 'u' :: h1 :: h2 :: h3 :: h4 :: rest =>
    (match hexVal h1, hexVal h2, hexVal h3, hexVal h4 with
     | some a, some b, some c2, some d =>
       (parseStrBody rest).map (fun pr =>
         (Char.ofNat (((a * 16 + b) * 16 + c2) * 16 + d) :: pr.1, pr.2))
     | _, _, _, _ => none)
  | '\\' :: e :: rest =>
    (escTable e).bind (fun d =>
      (parseStrBody rest).map (fun pr => (d :: pr.1, pr.2)))
  | c :: rest =>
    if c.toNat < 32 then none
    else (parseStrBody rest).map (fun pr => (c :: pr.1, pr.2))

def takeDigits : List Char → List Char × List Char
  | [] => ([], [])
  | c :: cs =>
    if c.isDigit then
      let (ds, r) := takeDigits cs
      (c :: ds, r)
    else ([], c :: cs)

def natOfDigits (ds : List Char) : Nat :=
  List.foldl (fun a c => a * 10 + (c.toNat - 48)) 0 ds

/-- Integer literals.  Fractional and exponent forms are beyond the model;
the store format only ever contains the integer 1. -/
def parseNum : List Char → Option (Json × List Char)
  | '-' :: cs =>
    match takeDigits cs with
    | ([], _) => none
    | (ds, r) => some (.num (-(natOfDigits ds : Int)), r)
  | cs =>
    match takeDigits cs with
    | ([], _) => none
    | (ds, r) => some (.num (natOfDigits ds), r)

/-- Parse mode: a single value, the element list of a non-empty array, or
the member list of a non-empty object. -/
inductive PMode where
  | val
  | elems
  | members

/-- Result of one parse step. -/
inductive PRes where
  | val (j : Json)
  | elems (js : List Json)
  | members (kvs : List (String × Json))

/-- Recursive-descent JSON parser.  A single function over explicit fuel so
that every call is structurally recursive and evaluates inside the kernel;
the fuel strictly exceeds the nesting structure of any input it is given. -/
def parseF : Nat → PMode → List Char → Option (PRes × List Char)
  | 0, _, _ => none
  | fuel + 1, .val, input =>
    match skipWs input with
    | '{' :: rest =>
      (match skipWs rest with
       | '}' :: rest2 => some (.val (.obj []), rest2)
       | rest2 =>
         match parseF fuel .members rest2 with
         | some (.members kvs, r) => some (.val (.obj kvs), r)
         | _ => none)
    | '[' :: rest =>
      (match skipWs rest with
       | ']' :: rest2 => some (.val (.arr []), rest2)
       | rest2 =>
         match parseF fuel .elems rest2 with
         | some (.elems js, r) => some (.val (.arr js), r)
         | _ => none)
    | '"' :: rest =>
      (parseStrBody rest).map (fun (cs, r) => (.val (.str (String.mk cs)), r))
    | 't' :: 'r' :: 'u' :: 'e' :: rest => some (.val (.bool true), rest)
    | 'f' :: 'a' :: 'l' :: 's' :: 'e' :: rest => some (.val (.bool false), rest)
    | 'n' :: 'u' :: 'l' :: 'l' :: rest => some (.val .null, rest)
    | other => (parseNum other).map (fun (j, r) => (.val j, r))
  | fuel + 1, .elems, input =>
    match parseF fuel .val input with
    | some (.val j, r) =>
      (match skipWs r with
       | ',' :: r2 =>
         (match parseF fuel .elems r2 with
          | some (.elems js, r3) => some (.elems (j :: js), r3)
          | _ => none)
       | ']' :: r2 => some (.elems [j], r2)
       | _ => none)
    | _ => none
  | fuel + 1, .members, input =>
    match skipWs input with
    | '"' :: rest =>
      (match parseStrBody rest with
       | some (kcs, r) =>
         (match skipWs r with
          | ':' :: r2 =>
            (match parseF fuel .val r2 with
             | some (.val v, r3) =>
               (match skipWs r3 with
                | ',' :: r4 =>
                  (match parseF fuel .members r4 with
                   | some (.members kvs, r5) =>
                     some (.members ((String.mk kcs, v) :: kvs), r5)
                   | _ => none)
                | '}' :: r4 => some (.members [(String.mk kcs, v)], r4)
                | _ => none)
             | _ => none)
          | _ => none)
       | none => none)
    | _ => none

/-- json.loads: parse one value, allow surrounding whitespace, reject
trailing content. -/
def loads (cs : List Char) : Option Json :=
  match parseF (cs.length + 1) .val cs with
  | some (.val j, rest) => if (skipWs rest).isEmpty then some j else none
  | _ => none

/-! ## Tolerant reading (_read_json_tolerant) -/

/-- Characters stripped from the end of a raw payload before parsing. -/
def stripSet (c : Char) : Bool :=
  c = '\x00' || c = '\r' || c = '\n' || c = '\t' || c = ' '

def rstripJunk (cs : List Char) : List Char :=
  (cs.reverse.dropWhile stripSet).reverse

/-- The fresh empty store returned for a missing or blank file. -/
def emptyStoreJson : Json :=
  .obj [("version", .num 1), ("items", .arr [])]

/-- Longest initial part of the payload ending in a closing curly brace
(the retry of _read_json_tolerant after a failed parse). -/
def truncToLastBrace (cs : List Char) : Option (List Char) :=
  match cs.reverse.dropWhile (fun c => !(c == '}')) with
  | [] => none
  | r => some r.reverse

/-- _read_json_tolerant on the bytes of an existing file: strip trailing
junk, parse, on failure retry on the part up to the last closing brace.
none models the unrecoverable outcome. -/
def readBytesTolerant (raw : List Char) : Option Json :=
  let stripped := rstripJunk raw
  if stripped.isEmpty then some emptyStoreJson
  else
    match loads stripped with
    | some j => some j
    | none =>
      match truncToLastBrace stripped with
      | some pre => loads pre
      | none => none

/-- _read_json_tolerant including the missing-file branch: a missing file
reads as a fresh empty store. -/
def readJsonTolerant (file : Option (List Char)) : Option Json :=
  match file with
  | none => some emptyStoreJson
  | some raw => readBytesTolerant raw

/-! ## Loading (_load_cache) -/

/-- String field extraction used when _load_cache rebuilds records:
item.get(key, "").  A present value of a non-string type falls outside
the typed model and reads as the default. -/
def itemStr (kvs : List (String × Json)) (k : String) : String :=
  match jlookup kvs k with
  | some (.str s) => s
  | _ => ""

/-- Alias list extraction: item.get("aliases", []) or [] — a missing or
null field yields the empty list; entries that are not strings fall
outside the typed model. -/
def itemAliases (kvs : List (String × Json)) : List String :=
  match jlookup kvs "aliases" with
  | some (.arr xs) =>
    xs.filterMap (fun j => match j with | .str s => some s | _ => none)
  | _ => []

def isObj : Json → Bool
  | .obj _ => true
  | _ => false

/-- One step of the dict comprehension of _load_cache: a record object with
a truthy q_norm is inserted under that key, anything else contributes
nothing. -/
def loadStep (acc : Cache) (it : Json) : Cache :=
  match it with
  | .obj kvs =>
    if itemStr kvs "q_norm" ≠ "" then
      dictInsert acc (itemStr kvs "q_norm")
        ⟨itemStr kvs "q", itemStr kvs "q_norm", itemStr kvs "a",
         itemStr kvs "ts", itemAliases kvs⟩
    else acc
  | _ => acc

/-- Rebuild of the in-memory dict from decoded data: records keyed by their
q_norm, entries with a falsy q_norm skipped.  Any shape that would make the
comprehension raise (non-object data, non-list items, non-object item) is
absorbed by the except clause, which resets the cache to empty. -/
def loadFromJson (j : Json) : Cache :=
  match pyGetD j "items" (.arr []) with
  | some (.arr its) =>
    if its.all isObj then its.foldl loadStep []
    else []
  | _ => []

/-- _load_cache over the active file and the previous in-memory state,
returning the new cache and the (untouched) file: a missing file empties
the cache without creating the file, an unrecoverable read keeps the
existing cache, otherwise the cache is rebuilt from the decoded data. -/
def loadCache (file : Option (List Char)) (old : Cache) : Cache × Option (List Char) :=
  match file with
  | none => ([], none)
  | some raw =>
    match readBytesTolerant raw with
    | none => (old, some raw)
    | some j => (loadFromJson j, some raw)

/-! ## Saving (_save_cache) -/

/-- _save_cache: an empty in-memory cache is never persisted (the on-disk
file keeps its bytes); otherwise the serialised records replace the file
content.  The boolean records whether a write happened. -/
def saveCache (c : Cache) (file : Option (List Char)) :
    Option (List Char) × Bool :=
  if c.isEmpty then (file, false)
  else (some (encodeStore (c.map (fun p => p.2))), true)

/-! ## Migration (_merge_cache_files) -/

/-- A merge-safe record object: it must be a dict (attribute access on
anything else raises) and its q_norm, when present and truthy, must be
hashable (set insertion or membership on a list/dict value raises).
Any raise is absorbed by the outer except clause, aborting the merge
before the destination is written. -/
def itemOk (it : Json) : Bool :=
  match it with
  | .obj kvs =>
    match jlookup kvs "q_norm" with
    | some v => jsonFalsy v || jsonHashable v
    | none => true
  | _ => false

/-- The truthy fingerprint of a record object, if any. -/
def itemTruthyQn (it : Json) : Option Json :=
  match it with
  | .obj kvs =>
    match jlookup kvs "q_norm" with
    | some v => if jsonFalsy v then none else some v
    | none => none
  | _ => none

/-- Length of a file's content, zero when the file is missing.  Used only
to size the printing fuel of the serializer during a merge: the nesting
depth of any value decoded from a file is below the file's length. -/
def fileLen : Option (List Char) → Nat
  | none => 0
  | some l => l.length

/-- _merge_cache_files src dst: returns the backup write (a copy of the
destination bytes, taken whenever the destination exists) and the new
destination content, none meaning the destination file is left untouched.
An unreadable source or destination, a falsy decoded source, any shape
that would raise inside the loop, or an empty set of new records all leave
the destination untouched. -/
def mergeCacheFiles (srcF dstF : Option (List Char)) :
    Option (List Char) × Option (List Char) :=
  let bak := dstF
  let dstOut : Option (List Char) :=
    match readJsonTolerant srcF with
    | none => none
    | some srcData =>
      if jsonFalsy srcData then none
      else
        match readJsonTolerant dstF with
        | none => none
        | some dstData =>
          match pyGetD srcData "items" (.arr []), pyGetD dstData "items" (.arr []) with
          | some (.arr sits), some (.arr dits) =>
            if sits.all itemOk && dits.all itemOk then
              let existing := dits.filterMap itemTruthyQn
              let newIts := sits.filter (fun it =>
                match itemTruthyQn it with
                | some v => !(existing.any (scalarEq v))
                | none => false)
              if newIts.isEmpty then none
              else
                some (dumpJ (fileLen srcF + fileLen dstF + 8) 0
                  (.obj [("version", .num 1), ("items", .arr (dits ++ newIts))]))
            else none
          | _, _ => none
  (bak, dstOut)

/-! ## The generation backend (_ask_llm) -/

/-- Observable outcome of the single HTTP call to the generation backend:
either the request raised (timeout, transport error) or a response with a
status code and, when the body parsed as JSON, its decoded value. -/
inductive BackendOutcome where
  | failure
  | response (status : Nat) (body : Option Json)

/-- _ask_llm: any raise yields no answer; a non-200 status yields no
answer; otherwise the response field of the decoded body, when it is a
string.  A missing field reads as None. -/
def askLlm (o : BackendOutcome) : Option String :=
  match o with
  | .failure => none
  | .response status body =>
    if status ≠ 200 then none
    else
      match body with
      | none => none
      | some j =>
        match j with
        | .obj kvs =>
          (match jlookup kvs "response" with
           | some (.str s) => some s
           | _ => none)
        | _ => none

/-! ## Request processing (async_process) -/

/-- The fixed fallback message returned when no usable answer exists. -/
def fallbackMsg : String := "Mi dispiace, non ho trovato una risposta."

/-- Observable outcome of one async_process call: the speech text set on
the response, the in-memory cache afterwards, and whether _save_cache was
invoked. -/
structure ProcOut where
  speech : String
  cache : Cache
  saved : Bool
deriving DecidableEq, Repr

/-- async_process, parameterised by the matching policy, the answer the
generation backend would return for this prompt (None models no usable
answer), and the timestamp a new record would carry.  The sequential
semantics collapses the re-check performed under the io lock with the
preceding lookup, which found the same record. -/
def process (matchPunct : Bool) (llm : Option String) (now : String)
    (cache : Cache) (q : String) : ProcOut :=
  let qn := normalize q
  match dictGet cache qn with
  | some ci => ⟨ci.a, cache, false⟩
  | none =>
    let fuzzyOut : Option ProcOut :=
      if matchPunct then none
      else
        match fuzzyFind cache (stripPunct qn) with
        | some (k, ci) =>
          if qn ≠ ci.q_norm ∧ qn ∉ ci.aliases then
            some ⟨ci.a, dictInsert cache k { ci with aliases := ci.aliases ++ [qn] }, true⟩
          else
            some ⟨ci.a, cache, false⟩
        | none => none
    match fuzzyOut with
    | some r => r
    | none =>
      match llm with
      | some ans =>
        if ans ≠ "" then
          if matchPunct then
            ⟨ans, dictInsert cache qn ⟨q, qn, ans, now, []⟩, true⟩
          else
            match fuzzyFind cache (stripPunct qn) with
            | some (k, ci) =>
              ⟨ans,
               if qn ≠ ci.q_norm ∧ qn ∉ ci.aliases then
                 dictInsert cache k { ci with aliases := ci.aliases ++ [qn] }
               else cache,
               true⟩
            | none => ⟨ans, dictInsert cache qn ⟨q, qn, ans, now, []⟩, true⟩
        else ⟨fallbackMsg, cache, false⟩
      | none => ⟨fallbackMsg, cache, false⟩

/-! ## Reachable engine states -/

/-- In-memory cache states reachable by engine operations: the fresh agent,
a load or reload from an arbitrary file (this also covers the reload after
a migration, whose effect on memory goes through _load_cache), and a
processed request under either policy with an arbitrary backend answer. -/
inductive Reachable : Cache → Prop
  | initial : Reachable []
  | load (file : Option (List Char)) (old : Cache) :
      Reachable old → Reachable (loadCache file old).1
  | proc (matchPunct : Bool) (llm : Option String) (now : String)
      (c : Cache) (q : String) :
      Reachable c → Reachable (process matchPunct llm now c q).cache

end CacheAgent

/-! ## Helper lemmas -/

namespace CacheAgent

theorem dictGet_dictInsert_self (c : Cache) (k : String) (v : CacheItem) :
    dictGet (dictInsert c k v) k = some v := by
  unfold dictGet dictInsert
  split
  case isTrue h =>
    induction c with
    | nil => simp at h
    | cons p ps ih =>
      simp only [List.any_cons, Bool.or_eq_true] at h
      by_cases hp : p.1 == k
      · simp [List.find?, hp]
      · rcases h with h | h
        · exact absurd h hp
        · simpa [List.find?, hp] using ih h
  case isFalse h =>
    induction c with
    | nil => simp [List.find?]
    | cons p ps ih =>
      simp only [List.any_cons, Bool.or_eq_true, not_or] at h
      obtain ⟨h1, h2⟩ := h
      rw [Bool.not_eq_true] at h1
      simp only [List.cons_append, List.find?, h1]
      exact ih h2

end CacheAgent

namespace CacheAgent

/-- Replacing the value at an existing key leaves the key sequence alone. -/
theorem keys_map_replace (c : Cache) (k : String) (v : CacheItem) :
    (c.map (fun p => if p.1 == k then (k, v) else p)).map Prod.fst =
      c.map Prod.fst := by
  rw [List.map_map]
  apply List.map_congr_left
  intro p _
  by_cases hp : p.1 = k
  · simp [Function.comp_apply, hp]
  · simp [Function.comp_apply, hp]

/-- A dict assignment never loses key uniqueness: an existing key keeps the
key sequence, a fresh key is appended. -/
theorem nodup_keys_dictInsert (c : Cache) (k : String) (v : CacheItem)
    (h : (c.map Prod.fst).Nodup) :
    ((dictInsert c k v).map Prod.fst).Nodup := by
  unfold dictInsert
  split
  case isTrue => rw [keys_map_replace]; exact h
  case isFalse hany =>
    rw [List.map_append]
    simp only [List.map_cons, List.map_nil]
    rw [List.nodup_append]
    refine ⟨h, List.nodup_singleton k, ?_⟩
    intro x hx
    simp only [List.mem_singleton]
    intro hk
    subst hk
    apply hany
    simp only [List.mem_map] at hx
    obtain ⟨p, hp, hpx⟩ := hx
    exact List.any_eq_true.mpr ⟨p, hp, by simp [hpx]⟩

/-- Key coherence: every key of the cache dict equals the q_norm field of
the record it maps to. -/
def Coherent (c : Cache) : Prop := ∀ p ∈ c, p.2.q_norm = p.1

theorem coherent_dictInsert (c : Cache) (k : String) (v : CacheItem)
    (hc : Coherent c) (hv : v.q_norm = k) : Coherent (dictInsert c k v) := by
  unfold dictInsert
  split
  · intro p hp
    simp only [List.mem_map] at hp
    obtain ⟨p0, hp0, hpe⟩ := hp
    by_cases h0 : p0.1 == k
    · rw [if_pos h0] at hpe
      subst hpe
      exact hv
    · rw [if_neg h0] at hpe
      subst hpe
      exact hc p0 hp0
  · intro p hp
    rcases List.mem_append.mp hp with h | h
    · exact hc p h
    · rcases List.mem_singleton.mp h with rfl
      exact hv

/-- The record found by the fuzzy scan is a member of the cache. -/
theorem fuzzyFind_mem {c : Cache} {qnCmp k : String} {ci : CacheItem}
    (h : fuzzyFind c qnCmp = some (k, ci)) : (k, ci) ∈ c :=
  List.mem_of_find?_eq_some h

/-- One comprehension step keeps key coherence and key uniqueness. -/
theorem loadStep_inv (acc : Cache) (it : Json)
    (h1 : Coherent acc) (h2 : (acc.map Prod.fst).Nodup) :
    Coherent (loadStep acc it) ∧ ((loadStep acc it).map Prod.fst).Nodup := by
  cases it with
  | obj kvs =>
    unfold loadStep
    dsimp only
    split
    · exact ⟨coherent_dictInsert _ _ _ h1 rfl, nodup_keys_dictInsert _ _ _ h2⟩
    · exact ⟨h1, h2⟩
  | null => exact ⟨h1, h2⟩
  | bool b => exact ⟨h1, h2⟩
  | num n => exact ⟨h1, h2⟩
  | str s => exact ⟨h1, h2⟩
  | arr xs => exact ⟨h1, h2⟩

theorem foldl_loadStep_inv (its : List Json) :
    ∀ acc : Cache, Coherent acc → (acc.map Prod.fst).Nodup →
      Coherent (its.foldl loadStep acc) ∧
      ((its.foldl loadStep acc).map Prod.fst).Nodup := by
  induction its with
  | nil => intro acc h1 h2; exact ⟨h1, h2⟩
  | cons it rest ih =>
    intro acc h1 h2
    simp only [List.foldl_cons]
    obtain ⟨g1, g2⟩ := loadStep_inv acc it h1 h2
    exact ih _ g1 g2

theorem coherent_nil : Coherent [] := fun p hp => absurd hp (List.not_mem_nil p)

/-- The rebuilt cache of _load_cache is key-coherent and has unique keys,
whatever data was decoded. -/
theorem loadFromJson_inv (j : Json) :
    Coherent (loadFromJson j) ∧ ((loadFromJson j).map Prod.fst).Nodup := by
  unfold loadFromJson
  split
  · split
    · exact foldl_loadStep_inv _ [] coherent_nil List.nodup_nil
    · exact ⟨coherent_nil, List.nodup_nil⟩
  · exact ⟨coherent_nil, List.nodup_nil⟩

end CacheAgent

namespace CacheAgent

/-- Every path through async_process leaves the cache alone, inserts one
fresh record keyed by the normalized query, or appends one alias to the
record the fuzzy scan found. -/
theorem process_cache_shape (mp : Bool) (llm : Option String) (now : String)
    (c : Cache) (q : String) :
    (process mp llm now c q).cache = c ∨
    (∃ ans, (process mp llm now c q).cache =
      dictInsert c (normalize q) ⟨q, normalize q, ans, now, []⟩) ∨
    (∃ k ci, fuzzyFind c (stripPunct (normalize q)) = some (k, ci) ∧
      (process mp llm now c q).cache =
        dictInsert c k { ci with aliases := ci.aliases ++ [normalize q] }) := by
  unfold process
  dsimp only
  split
  · exact Or.inl rfl
  · split
    · next r heq =>
      split at heq
      · exact absurd heq (by simp)
      · split at heq
        next k ci hf =>
          split at heq
          · cases heq
            exact Or.inr (Or.inr ⟨k, ci, hf, rfl⟩)
          · cases heq
            exact Or.inl rfl
        next => exact absurd heq (by simp)
    · split
      · split
        · split
          · exact Or.inr (Or.inl ⟨_, rfl⟩)
          · split
            next k ci hf =>
              split
              · exact Or.inr (Or.inr ⟨k, ci, hf, rfl⟩)
              · exact Or.inl rfl
            next => exact Or.inr (Or.inl ⟨_, rfl⟩)
        · exact Or.inl rfl
      · exact Or.inl rfl

/-- async_process preserves key coherence and key uniqueness. -/
theorem process_inv (mp : Bool) (llm : Option String) (now : String)
    (c : Cache) (q : String) (h1 : Coherent c) (h2 : (c.map Prod.fst).Nodup) :
    Coherent (process mp llm now c q).cache ∧
    ((process mp llm now c q).cache.map Prod.fst).Nodup := by
  rcases process_cache_shape mp llm now c q with h | ⟨ans, h⟩ | ⟨k, ci, hf, h⟩
  · rw [h]; exact ⟨h1, h2⟩
  · rw [h]
    exact ⟨coherent_dictInsert _ _ _ h1 rfl, nodup_keys_dictInsert _ _ _ h2⟩
  · rw [h]
    have hk : ci.q_norm = k := h1 _ (fuzzyFind_mem hf)
    exact ⟨coherent_dictInsert _ _ _ h1 hk, nodup_keys_dictInsert _ _ _ h2⟩

/-- Every reachable cache state is key-coherent with unique keys. -/
theorem reachable_inv {c : Cache} (h : Reachable c) :
    Coherent c ∧ (c.map Prod.fst).Nodup := by
  induction h with
  | initial => exact ⟨coherent_nil, List.nodup_nil⟩
  | load file old _ ih =>
    cases file with
    | none => exact ⟨coherent_nil, List.nodup_nil⟩
    | some raw =>
      unfold loadCache
      dsimp only
      split
      · exact ih
      · exact loadFromJson_inv _
  | proc mp llm now c q _ ih => exact process_inv mp llm now c q ih.1 ih.2

end CacheAgent

namespace CacheAgent

/-- The uniqueness property of claim C1: across any two distinct records,
no normalized form occurs in both records' fingerprint-plus-alias sets. -/
def UniqueFingerprints (c : Cache) : Prop :=
  (c.map (fun p => p.2.q_norm :: p.2.aliases)).Pairwise
    (fun l1 l2 => ∀ s ∈ l1, s ∉ l2)

instance (c : Cache) : Decidable (UniqueFingerprints c) :=
  List.instDecidablePairwise _

/-- Claim C1, counterexample: three engine operations starting from the
fresh empty store produce a store in which the normalized form of the word
hello is both an alias of the first record and the primary fingerprint of
the second record.  With the punctuation-insensitive policy a first query
creates a record, a second query appends the punctuation-free form as an
alias, and after switching to the punctuation-sensitive policy a third
query creates a brand-new record keyed by exactly that alias. -/
theorem c1_counterexample :
    ¬ UniqueFingerprints
        (process true (some "Yo") "t2"
          (process false (some "X") "t1"
            (process false (some "Hi") "t0" [] "hello!").cache "hello").cache
          "Hello").cache := by
  decide

/-- Claim C1 (amended): no sequence of engine operations can produce two
records in the same store sharing a primary fingerprint — the cache is a
dict keyed by the fingerprint.  An alias, however, may coincide with
another record's primary fingerprint or alias, as the counterexample
shows. -/
theorem c1_unique_primary {c : Cache} (h : Reachable c) :
    (c.map (fun p => p.2.q_norm)).Nodup := by
  obtain ⟨h1, h2⟩ := reachable_inv h
  have he : c.map (fun p => p.2.q_norm) = c.map Prod.fst :=
    List.map_congr_left (fun p hp => h1 p hp)
  rw [he]
  exact h2

theorem c1_witness :
    ((process true (some "A") "t" [] "hi").cache.map
      (fun p => p.2.q_norm)).Nodup :=
  c1_unique_primary (Reachable.proc true (some "A") "t" [] "hi" Reachable.initial)

/-- Claim C10: in every reachable in-memory cache state, every key of the
cache dict equals the q_norm field of the record it maps to; loading,
record creation under either policy and alias appension preserve this. -/
theorem c10_key_coherence {c : Cache} (h : Reachable c) : Coherent c :=
  (reachable_inv h).1

theorem c10_witness :
    Coherent (process false (some "B") "t" [] "Hey!").cache :=
  c10_key_coherence (Reachable.proc false (some "B") "t" [] "Hey!" Reachable.initial)

/-- Claim C2: saving an empty in-memory cache is a no-op — no write
happens and the on-disk bytes are unchanged, whatever they were. -/
theorem c2_empty_save_noop (file : Option (List Char)) :
    saveCache [] file = (file, false) := rfl

/-- Claim C3: loading never writes the store file, and loading with the
active file missing empties the in-memory cache while leaving the file
absent (lazy creation). -/
theorem c3_lazy_load (file : Option (List Char)) (old : Cache) :
    (loadCache file old).2 = file ∧
    (file = none → loadCache file old = ([], none)) := by
  cases file with
  | none => exact ⟨rfl, fun _ => rfl⟩
  | some raw =>
    refine ⟨?_, fun h => by cases h⟩
    unfold loadCache
    dsimp only
    split
    · rfl
    · rfl

theorem c3_witness :
    (loadCache none [("k", ⟨"k", "k", "A", "t", []⟩)]).2 = none ∧
    loadCache none [("k", ⟨"k", "k", "A", "t", []⟩)] = ([], none) :=
  ⟨(c3_lazy_load none [("k", ⟨"k", "k", "A", "t", []⟩)]).1,
   (c3_lazy_load none [("k", ⟨"k", "k", "A", "t", []⟩)]).2 rfl⟩

/-- Claim C9: a query whose normalized form is a primary fingerprint in
the cache returns exactly the stored answer, changes nothing and persists
nothing, under either policy. -/
theorem c9_exact_hit (mp : Bool) (llm : Option String) (now : String)
    (cache : Cache) (q : String) (ci : CacheItem)
    (h : dictGet cache (normalize q) = some ci) :
    process mp llm now cache q = ⟨ci.a, cache, false⟩ := by
  unfold process
  simp only [h]

theorem c9_witness :
    dictGet [("hi", ⟨"hi", "hi", "A", "t", []⟩)] (normalize "HI") =
      some ⟨"hi", "hi", "A", "t", []⟩ ∧
    process true none "t2" [("hi", ⟨"hi", "hi", "A", "t", []⟩)] "HI" =
      ⟨"A", [("hi", ⟨"hi", "hi", "A", "t", []⟩)], false⟩ :=
  ⟨by decide,
   c9_exact_hit true none "t2" [("hi", ⟨"hi", "hi", "A", "t", []⟩)] "HI"
     ⟨"hi", "hi", "A", "t", []⟩ (by decide)⟩

/-- Claim C6: on a total cache miss where the generation backend yields no
usable answer (request failure, non-200 status, unusable body, or an empty
response string), processing returns the fixed fallback message, creates
no record and persists nothing. -/
theorem c6_fallback (mp : Bool) (o : BackendOutcome) (now : String)
    (cache : Cache) (q : String)
    (hmiss : dictGet cache (normalize q) = none)
    (hfuzzy : mp = false → fuzzyFind cache (stripPunct (normalize q)) = none)
    (hno : askLlm o = none ∨ askLlm o = some "") :
    process mp (askLlm o) now cache q = ⟨fallbackMsg, cache, false⟩ := by
  unfold process
  simp only [hmiss]
  cases mp with
  | true =>
    simp only [if_pos rfl]
    rcases hno with h | h
    all_goals rw [h]
    all_goals simp
  | false =>
    rw [if_neg (by simp), hfuzzy rfl]
    rcases hno with h | h
    all_goals rw [h]
    all_goals simp

theorem c6_witness :
    dictGet [] (normalize "x") = none ∧
    askLlm BackendOutcome.failure = none ∧
    process true (askLlm BackendOutcome.failure) "t" [] "x" =
      ⟨fallbackMsg, [], false⟩ :=
  ⟨rfl, rfl,
   c6_fallback true BackendOutcome.failure "t" [] "x" rfl
     (fun h => nomatch h) (Or.inl rfl)⟩

/-- Claim C4: with the punctuation-insensitive policy, on a fuzzy hit
where the normalized query is neither the found record's primary
fingerprint nor one of its aliases, processing returns the stored answer,
appends the normalized query as a new alias and persists; the record keeps
its answer and timestamp. -/
theorem c4_fuzzy_alias (cache : Cache) (q : String) (llm : Option String)
    (now : String) (k : String) (ci : CacheItem)
    (hmiss : dictGet cache (normalize q) = none)
    (hfz : fuzzyFind cache (stripPunct (normalize q)) = some (k, ci))
    (hqn : normalize q ≠ ci.q_norm)
    (hal : normalize q ∉ ci.aliases) :
    process false llm now cache q =
      ⟨ci.a, dictInsert cache k { ci with aliases := ci.aliases ++ [normalize q] },
       true⟩ ∧
    dictGet (process false llm now cache q).cache k =
      some { ci with aliases := ci.aliases ++ [normalize q] } := by
  have h1 : process false llm now cache q =
      ⟨ci.a, dictInsert cache k { ci with aliases := ci.aliases ++ [normalize q] },
       true⟩ := by
    unfold process
    simp only [hmiss, hfz]
    rw [if_neg (by simp), if_pos ⟨hqn, hal⟩]
  refine ⟨h1, ?_⟩
  rw [h1]
  exact dictGet_dictInsert_self cache k _

theorem c4_witness :
    dictGet [("hello!", ⟨"Hello!", "hello!", "Hi", "t0", []⟩)]
      (normalize "hello") = none ∧
    fuzzyFind [("hello!", ⟨"Hello!", "hello!", "Hi", "t0", []⟩)]
      (stripPunct (normalize "hello")) =
      some ("hello!", ⟨"Hello!", "hello!", "Hi", "t0", []⟩) ∧
    process false none "t1" [("hello!", ⟨"Hello!", "hello!", "Hi", "t0", []⟩)]
      "hello" =
      ⟨"Hi", [("hello!", ⟨"Hello!", "hello!", "Hi", "t0", ["hello"]⟩)], true⟩ :=
  ⟨by decide, by decide,
   (c4_fuzzy_alias [("hello!", ⟨"Hello!", "hello!", "Hi", "t0", []⟩)] "hello"
     none "t1" "hello!" ⟨"Hello!", "hello!", "Hi", "t0", []⟩
     (by decide) (by decide) (by decide) (by decide)).1⟩

end CacheAgent

namespace CacheAgent

theorem dropWhile_append_of_all {p : Char → Bool} {ys zs : List Char}
    (h : ∀ c ∈ ys, p c = true) :
    List.dropWhile p (ys ++ zs) = List.dropWhile p zs := by
  induction ys with
  | nil => rfl
  | cons y ys ih =>
    simp only [List.cons_append, List.dropWhile_cons,
      h y (List.mem_cons_self y ys), if_pos]
    exact ih (fun c hc => h c (List.mem_cons_of_mem y hc))

/-- Appending only strippable characters does not change the stripped
payload. -/
theorem rstripJunk_append_junk {xs junk : List Char}
    (h : ∀ c ∈ junk, stripSet c = true) :
    rstripJunk (xs ++ junk) = rstripJunk xs := by
  unfold rstripJunk
  rw [List.reverse_append]
  rw [dropWhile_append_of_all (fun c hc => h c (List.mem_reverse.mp hc))]

/-- The tolerant reader only looks at the stripped payload. -/
theorem readBytesTolerant_congr {a b : List Char}
    (h : rstripJunk a = rstripJunk b) :
    readBytesTolerant a = readBytesTolerant b := by
  unfold readBytesTolerant
  rw [h]

/-- Claim C8: decoding a serialised store with trailing NUL bytes,
carriage returns, tabs or spaces appended yields the same result as
decoding the serialised store alone. -/
theorem c8_tolerant_decode (items : List CacheItem) (junk : List Char)
    (hj : ∀ c ∈ junk, c = '\x00' ∨ c = '\r' ∨ c = '\t' ∨ c = ' ') :
    readJsonTolerant (some (encodeStore items ++ junk)) =
    readJsonTolerant (some (encodeStore items)) := by
  show readBytesTolerant _ = readBytesTolerant _
  apply readBytesTolerant_congr
  apply rstripJunk_append_junk
  intro c hc
  rcases hj c hc with h | h | h | h
  all_goals simp [stripSet, h]

theorem c8_witness :
    (∀ c ∈ ['\x00', '\x00', '\x00'],
      c = '\x00' ∨ c = '\r' ∨ c = '\t' ∨ c = ' ') ∧
    readJsonTolerant (some (encodeStore [] ++ ['\x00', '\x00', '\x00'])) =
      readJsonTolerant (some (encodeStore [])) :=
  ⟨by decide, c8_tolerant_decode [] ['\x00', '\x00', '\x00'] (by decide)⟩

end CacheAgent

namespace CacheAgent

theorem hexVal_hexDig (n : Nat) (h : n < 16) : hexVal (hexDig n) = some n := by
  interval_cases n <;> decide

/-- Parsing undoes the escaping json.dumps applies inside string
literals. -/
theorem parseStrBody_escStr (cs rest : List Char) :
    parseStrBody (escStr cs ++ ('"' :: rest)) = some (cs, rest) := by
  induction cs with
  | nil => simp [escStr, parseStrBody]
  | cons c cs ih =>
    simp only [escStr, List.append_assoc]
    by_cases h1 : c = '"'
    · subst h1; simp [escChar, parseStrBody, escTable, ih]
    · by_cases h2 : c = '\\'
      · subst h2; simp [escChar, parseStrBody, escTable, ih]
      · by_cases h3 : c = '\x08'
        · subst h3; simp [escChar, parseStrBody, escTable, ih]
        · by_cases h4 : c = '\t'
          · subst h4; simp [escChar, parseStrBody, escTable, ih]
          · by_cases h5 : c = '\n'
            · subst h5; simp [escChar, parseStrBody, escTable, ih]
            · by_cases h6 : c = '\x0c'
              · subst h6; simp [escChar, parseStrBody, escTable, ih]
              · by_cases h7 : c = '\r'
                · subst h7; simp [escChar, parseStrBody, escTable, ih]
                · by_cases h8 : c.toNat < 32
                  · have hhi : hexVal (hexDig (c.toNat / 16)) = some (c.toNat / 16) :=
                      hexVal_hexDig _ (by omega)
                    have hlo : hexVal (hexDig (c.toNat % 16)) = some (c.toNat % 16) :=
                      hexVal_hexDig _ (Nat.mod_lt _ (by omega))
                    have h0 : hexVal '0' = some 0 := by decide
                    have harith : ((0 * 16 + 0) * 16 + c.toNat / 16) * 16 + c.toNat % 16 =
                        c.toNat := by omega
                    simp only [escChar, h1, h2, h3, h4, h5, h6, h7, if_neg,
                      if_pos h8, ite_false, List.cons_append, List.nil_append]
                    simp only [parseStrBody]
                    rw [h0, hhi, hlo]
                    dsimp only
                    rw [ih, harith, Char.ofNat_toNat]
                    rfl
                  · simp [escChar, h1, h2, h3, h4, h5, h6, h7, h8, parseStrBody, ih]

end CacheAgent

namespace CacheAgent

theorem skipWs_not (c : Char) (h : jsonWs c = false) (cs : List Char) :
    skipWs (c :: cs) = c :: cs := by
  simp [skipWs, h]

theorem skipWs_append_ws {ws : List Char} (h : ∀ c ∈ ws, jsonWs c = true)
    (rest : List Char) : skipWs (ws ++ rest) = skipWs rest := by
  induction ws with
  | nil => rfl
  | cons w ws ih =>
    simp only [List.cons_append, skipWs, h w (List.mem_cons_self w ws), if_pos]
    exact ih (fun c hc => h c (List.mem_cons_of_mem w hc))

theorem skipWs_indent (l : Nat) (rest : List Char) :
    skipWs (indent l ++ rest) = skipWs rest :=
  skipWs_append_ws (fun c hc => by
    rw [List.eq_of_mem_replicate hc]; rfl) rest

theorem skipWs_strLit (s : String) (rest : List Char) :
    skipWs (strLit s ++ rest) = strLit s ++ rest := by
  simp only [strLit, List.cons_append]
  exact skipWs_not _ (by decide) _

theorem string_mk_toList (s : String) : String.mk s.toList = s := by
  cases s
  rfl

/-- One-step unfolding of the parser in value mode. -/
theorem parseF_val_eq (m' : Nat) (input : List Char) :
    parseF (m' + 1) .val input =
      (match skipWs input with
       | '{' :: rest =>
         (match skipWs rest with
          | '}' :: rest2 => some (.val (.obj []), rest2)
          | rest2 =>
            match parseF m' .members rest2 with
            | some (.members kvs, r) => some (.val (.obj kvs), r)
            | _ => none)
       | '[' :: rest =>
         (match skipWs rest with
          | ']' :: rest2 => some (.val (.arr []), rest2)
          | rest2 =>
            match parseF m' .elems rest2 with
            | some (.elems js, r) => some (.val (.arr js), r)
            | _ => none)
       | '"' :: rest =>
         (parseStrBody rest).map (fun (cs, r) => (.val (.str (String.mk cs)), r))
       | 't' :: 'r' :: 'u' :: 'e' :: rest => some (.val (.bool true), rest)
       | 'f' :: 'a' :: 'l' :: 's' :: 'e' :: rest => some (.val (.bool false), rest)
       | 'n' :: 'u' :: 'l' :: 'l' :: rest => some (.val .null, rest)
       | other => (parseNum other).map (fun (j, r) => (.val j, r)) :
        Option (PRes × List Char)) := rfl

/-- One-step unfolding of the parser in element-list mode. -/
theorem parseF_elems_eq (m' : Nat) (input : List Char) :
    parseF (m' + 1) .elems input =
      (match parseF m' .val input with
       | some (.val j, r) =>
         (match skipWs r with
          | ',' :: r2 =>
            (match parseF m' .elems r2 with
             | some (.elems js, r3) => some (.elems (j :: js), r3)
             | _ => none)
          | ']' :: r2 => some (.elems [j], r2)
          | _ => none)
       | _ => none : Option (PRes × List Char)) := rfl

/-- One-step unfolding of the parser in member-list mode. -/
theorem parseF_members_eq (m' : Nat) (input : List Char) :
    parseF (m' + 1) .members input =
      (match skipWs input with
       | '"' :: rest =>
         (match parseStrBody rest with
          | some (kcs, r) =>
            (match skipWs r with
             | ':' :: r2 =>
               (match parseF m' .val r2 with
                | some (.val v, r3) =>
                  (match skipWs r3 with
                   | ',' :: r4 =>
                     (match parseF m' .members r4 with
                      | some (.members kvs, r5) =>
                        some (.members ((String.mk kcs, v) :: kvs), r5)
                      | _ => none)
                   | '}' :: r4 => some (.members [(String.mk kcs, v)], r4)
                   | _ => none)
                | _ => none)
             | _ => none)
          | none => none)
       | _ => none : Option (PRes × List Char)) := rfl

set_option maxHeartbeats 1000000 in
/-- A string literal parses to its string at any positive fuel. -/
theorem val_str (s : String) (input rest : List Char) (m : Nat) (hm : 1 ≤ m)
    (hin : skipWs input = strLit s ++ rest) :
    parseF m .val input = some (.val (.str s), rest) := by
  obtain ⟨m', rfl⟩ : ∃ k, m = k + 1 := ⟨m - 1, by omega⟩
  rw [parseF_val_eq, hin]
  simp only [strLit, List.cons_append, List.append_assoc, List.singleton_append]
  rw [parseStrBody_escStr]
  simp [string_mk_toList]

set_option maxHeartbeats 1000000 in
/-- The schema version literal 1 followed by a comma. -/
theorem val_one (input rest : List Char) (m : Nat) (hm : 1 ≤ m)
    (hin : skipWs input = '1' :: ',' :: rest) :
    parseF m .val input = some (.val (.num 1), ',' :: rest) := by
  obtain ⟨m', rfl⟩ : ∃ k, m = k + 1 := ⟨m - 1, by omega⟩
  rw [parseF_val_eq, hin]
  simp [parseNum, takeDigits, natOfDigits]

end CacheAgent

namespace CacheAgent

/-- The serialised continuation after one alias line: nothing for the last
element, a comma, newline and the remaining lines otherwise. -/
def aliTail (lvl : Nat) : List String → List Char
  | [] => []
  | b :: xs => ',' :: '\n' :: encAliasLines lvl (b :: xs)

theorem encAliasLines_cons (lvl : Nat) (b : String) (xs : List String) :
    encAliasLines lvl (b :: xs) = indent lvl ++ (strLit b ++ aliTail lvl xs) := by
  cases xs with
  | nil => simp [encAliasLines, aliTail]
  | cons c xs => simp [encAliasLines, aliTail]

theorem jsonWs_newline : jsonWs '\n' = true := rfl

set_option maxHeartbeats 1000000 in
/-- Element-list parsing of the serialised alias strings. -/
theorem elems_strs (lvl : Nat) (a : String) (xs : List String)
    (lead ws rest : List Char) (m : Nat)
    (hlead : ∀ c ∈ lead, jsonWs c = true) (hws : ∀ c ∈ ws, jsonWs c = true)
    (hm : xs.length + 2 ≤ m) :
    parseF m .elems (lead ++ (strLit a ++ (aliTail lvl xs ++ (ws ++ (']' :: rest))))) =
      some (.elems ((a :: xs).map Json.str), rest) := by
  induction xs generalizing a lead m with
  | nil =>
    obtain ⟨m', rfl⟩ : ∃ k, m = k + 1 := ⟨m - 1, by omega⟩
    rw [parseF_elems_eq]
    rw [val_str a _ (ws ++ (']' :: rest)) m' (by omega)
      (by rw [skipWs_append_ws hlead]
          simp only [aliTail, List.nil_append]
          exact skipWs_strLit a _)]
    dsimp only
    rw [skipWs_append_ws hws, skipWs_not ']' (by rfl)]
    rfl
  | cons b xs ih =>
    obtain ⟨m', rfl⟩ : ∃ k, m = k + 1 := ⟨m - 1, by omega⟩
    rw [parseF_elems_eq]
    rw [val_str a _ (aliTail lvl (b :: xs) ++ (ws ++ (']' :: rest))) m' (by omega)
      (by rw [skipWs_append_ws hlead]
          exact skipWs_strLit a _)]
    dsimp only
    simp only [aliTail, List.cons_append]
    rw [skipWs_not ',' (by rfl)]
    have hrec := ih b ('\n' :: indent lvl) m'
      (by intro c hc
          rcases List.mem_cons.mp hc with rfl | hc
          · rfl
          · rw [List.eq_of_mem_replicate hc]; rfl)
      (by simp only [List.length_cons] at hm; omega)
    rw [encAliasLines_cons]
    simp only [List.append_assoc, List.cons_append] at hrec ⊢
    rw [hrec]
    simp

end CacheAgent

namespace CacheAgent

theorem skipWs_nl (cs : List Char) : skipWs ('\n' :: cs) = skipWs cs := by
  simp [skipWs, jsonWs]

set_option maxHeartbeats 1000000 in
/-- The serialised alias array parses back to the alias strings. -/
theorem val_aliases (lvl : Nat) (xs : List String) (input rest : List Char)
    (m : Nat) (hm : xs.length + 2 ≤ m)
    (hin : skipWs input = encAliases lvl xs ++ rest) :
    parseF m .val input = some (.val (.arr (xs.map Json.str)), rest) := by
  obtain ⟨m', rfl⟩ : ∃ k, m = k + 1 := ⟨m - 1, by omega⟩
  rw [parseF_val_eq, hin]
  cases xs with
  | nil =>
    simp only [encAliases, List.cons_append, List.nil_append]
    rw [skipWs_not ']' (by rfl)]
    rfl
  | cons a xs =>
    simp only [encAliases, List.cons_append, List.append_assoc, List.nil_append]
    have hs : skipWs ('\n' :: (encAliasLines (lvl + 1) (a :: xs) ++
        ('\n' :: (indent lvl ++ (']' :: rest))))) =
        strLit a ++ (aliTail (lvl + 1) xs ++
          ('\n' :: (indent lvl ++ (']' :: rest)))) := by
      rw [skipWs_nl, encAliasLines_cons, List.append_assoc, skipWs_indent,
        List.append_assoc, skipWs_strLit]
    rw [hs]
    have he := elems_strs (lvl + 1) a xs [] ('\n' :: indent lvl)
      (']' :: rest).tail m'
      (fun c hc => absurd hc (List.not_mem_nil c))
      (by intro c hc
          rcases List.mem_cons.mp hc with rfl | hc
          · rfl
          · rw [List.eq_of_mem_replicate hc]; rfl)
      (by simp only [List.length_cons] at hm; omega)
    simp only [List.nil_append, List.cons_append, List.tail_cons] at he
    simp only [strLit, List.cons_append, List.append_assoc] at he ⊢
    show (match parseF m' PMode.elems ('"' :: (escStr a.toList ++ '"' ::
        ([] ++ (aliTail (lvl + 1) xs ++ '
' :: (indent lvl ++ ']' :: rest))))) with
      | some (PRes.elems js, r) => some (PRes.val (Json.arr js), r)
      | _ => none) =
      some (PRes.val (Json.arr (List.map Json.str (a :: xs))), rest)
    rw [he]

end CacheAgent

namespace CacheAgent

theorem skipWs_space (cs : List Char) : skipWs (' ' :: cs) = skipWs cs := by
  simp [skipWs, jsonWs]

/-- Object keys made of ordinary characters parse back to themselves. -/
theorem parseStrBody_plain (key : List Char)
    (h : ∀ c ∈ key, ¬c = '"' ∧ ¬c = '\\' ∧ ¬c.toNat < 32) :
    ∀ R, parseStrBody (key ++ ('"' :: R)) = some (key, R) := by
  induction key with
  | nil => intro R; simp [parseStrBody]
  | cons c ks ih =>
    intro R
    obtain ⟨h1, h2, h3⟩ := h c (List.mem_cons_self c ks)
    simp only [List.cons_append]
    simp [parseStrBody, h1, h2, h3,
      ih (fun d hd => h d (List.mem_cons_of_mem c hd)) R]

set_option maxHeartbeats 1000000 in
/-- Parsing one object member whose serialisation is followed by a comma
and further members. -/
theorem mem_cons (lvl : Nat) (key venc T : List Char) (v : Json)
    (kvs : List (String × Json)) (rest : List Char) (m : Nat)
    (hkey : ∀ R, parseStrBody (key ++ ('"' :: R)) = some (key, R))
    (hv : parseF m .val (' ' :: (venc ++ (',' :: '\n' :: T))) =
      some (.val v, ',' :: '\n' :: T))
    (hcont : parseF m .members ('\n' :: T) = some (.members kvs, rest))
    (input : List Char)
    (hin : skipWs input = skipWs (memberLine lvl key venc ++ (',' :: '\n' :: T))) :
    parseF (m + 1) .members input =
      some (.members ((String.mk key, v) :: kvs), rest) := by
  rw [parseF_members_eq, hin]
  simp only [memberLine, List.append_assoc, List.cons_append]
  rw [skipWs_indent, skipWs_not '"' (by rfl)]
  have hk := hkey (':' :: ' ' :: (venc ++ (',' :: '\n' :: T)))
  simp [hk, hv, hcont, skipWs_not ':' (by rfl), skipWs_not ',' (by rfl)]

set_option maxHeartbeats 1000000 in
/-- Parsing the last object member, terminated by the closing brace. -/
theorem mem_last (lvl : Nat) (key venc ws rest : List Char) (v : Json) (m : Nat)
    (hkey : ∀ R, parseStrBody (key ++ ('"' :: R)) = some (key, R))
    (hv : parseF m .val (' ' :: (venc ++ (ws ++ ('}' :: rest)))) =
      some (.val v, ws ++ ('}' :: rest)))
    (hws : ∀ c ∈ ws, jsonWs c = true)
    (input : List Char)
    (hin : skipWs input = skipWs (memberLine lvl key venc ++ (ws ++ ('}' :: rest)))) :
    parseF (m + 1) .members input =
      some (.members [(String.mk key, v)], rest) := by
  rw [parseF_members_eq, hin]
  simp only [memberLine, List.append_assoc, List.cons_append]
  rw [skipWs_indent, skipWs_not '"' (by rfl)]
  have hk := hkey (':' :: ' ' :: (venc ++ (ws ++ ('}' :: rest))))
  simp [hk, hv, skipWs_not ':' (by rfl), skipWs_append_ws hws,
    skipWs_not '}' (by rfl)]

end CacheAgent

namespace CacheAgent

theorem skipWs_idem (cs : List Char) : skipWs (skipWs cs) = skipWs cs := by
  induction cs with
  | nil => rfl
  | cons c cs ih =>
    by_cases h : jsonWs c = true
    · simp [skipWs, h, ih]
    · simp only [Bool.not_eq_true] at h
      simp [skipWs, h]

theorem skipWs_encAliases (lvl : Nat) (xs : List String) (X : List Char) :
    skipWs (encAliases lvl xs ++ X) = encAliases lvl xs ++ X := by
  cases xs with
  | nil => simp only [encAliases, List.cons_append]; exact skipWs_not '[' (by rfl) _
  | cons a ys => simp only [encAliases, List.cons_append]; exact skipWs_not '[' (by rfl) _

theorem keyParse_q : ∀ R, parseStrBody (['q'] ++ ('"' :: R)) = some (['q'], R) :=
  parseStrBody_plain _ (by decide)

theorem keyParse_qnorm : ∀ R,
    parseStrBody (['q', '_', 'n', 'o', 'r', 'm'] ++ ('"' :: R)) =
      some (['q', '_', 'n', 'o', 'r', 'm'], R) :=
  parseStrBody_plain _ (by decide)

theorem keyParse_a : ∀ R, parseStrBody (['a'] ++ ('"' :: R)) = some (['a'], R) :=
  parseStrBody_plain _ (by decide)

theorem keyParse_ts : ∀ R,
    parseStrBody (['t', 's'] ++ ('"' :: R)) = some (['t', 's'], R) :=
  parseStrBody_plain _ (by decide)

theorem keyParse_aliases : ∀ R,
    parseStrBody (['a', 'l', 'i', 'a', 's', 'e', 's'] ++ ('"' :: R)) =
      some (['a', 'l', 'i', 'a', 's', 'e', 's'], R) :=
  parseStrBody_plain _ (by decide)

theorem keyParse_version : ∀ R,
    parseStrBody (['v', 'e', 'r', 's', 'i', 'o', 'n'] ++ ('"' :: R)) =
      some (['v', 'e', 'r', 's', 'i', 'o', 'n'], R) :=
  parseStrBody_plain _ (by decide)

theorem keyParse_items : ∀ R,
    parseStrBody (['i', 't', 'e', 'm', 's'] ++ ('"' :: R)) =
      some (['i', 't', 'e', 'm', 's'], R) :=
  parseStrBody_plain _ (by decide)

end CacheAgent

namespace CacheAgent

/-- Member-mode parsing only depends on the whitespace-skipped input. -/
theorem parseF_members_skipWs (m : Nat) (input : List Char) :
    parseF m .members (skipWs input) = parseF m .members input := by
  cases m with
  | zero => rfl
  | succ m' => rw [parseF_members_eq, parseF_members_eq, skipWs_idem]

set_option maxHeartbeats 2000000 in
/-- One serialised record object parses back to its JSON object. -/
theorem val_item (lvl : Nat) (ci : CacheItem) (input rest : List Char)
    (m : Nat) (hm : ci.aliases.length + 9 ≤ m)
    (hin : skipWs input = encItem lvl ci ++ rest) :
    parseF m .val input = some (.val (jsonOfItem ci), rest) := by
  obtain ⟨m0, rfl⟩ : ∃ k, m = k + 1 := ⟨m - 1, by omega⟩
  have hmA : ci.aliases.length + 8 ≤ m0 := by omega
  -- the five member texts and the tails that follow each of them
  set M5 := memberLine (lvl + 1) ['a', 'l', 'i', 'a', 's', 'e', 's']
    (encAliases (lvl + 1) ci.aliases) with hM5
  set M4 := memberLine (lvl + 1) ['t', 's'] (strLit ci.ts) with hM4
  set M3 := memberLine (lvl + 1) ['a'] (strLit ci.a) with hM3
  set M2 := memberLine (lvl + 1) ['q', '_', 'n', 'o', 'r', 'm']
    (strLit ci.q_norm) with hM2
  set M1 := memberLine (lvl + 1) ['q'] (strLit ci.q) with hM1
  set T5 := M5 ++ ('\n' :: (indent lvl ++ ('}' :: rest))) with hT5
  set T4 := M4 ++ (',' :: '\n' :: T5) with hT4
  set T3 := M3 ++ (',' :: '\n' :: T4) with hT3
  set T2 := M2 ++ (',' :: '\n' :: T3) with hT2
  set T1 := M1 ++ (',' :: '\n' :: T2) with hT1
  -- the aliases member, terminated by the closing brace
  have h5 : parseF (m0 - 4) .members ('\n' :: T5) =
      some (.members [(String.mk ['a', 'l', 'i', 'a', 's', 'e', 's'],
        .arr (ci.aliases.map Json.str))], rest) := by
    obtain ⟨m5, he5⟩ : ∃ k, m0 - 4 = k + 1 := ⟨m0 - 5, by omega⟩
    rw [he5]
    refine mem_last (lvl + 1) _ _ ('\n' :: indent lvl) rest _ m5 keyParse_aliases
      (val_aliases (lvl + 1) ci.aliases _ _ m5 (by omega)
        (by rw [skipWs_space, skipWs_encAliases]))
      (by intro c hc
          rcases List.mem_cons.mp hc with rfl | hc
          · rfl
          · rw [List.eq_of_mem_replicate hc]; rfl)
      ('\n' :: T5) ?_
    rw [skipWs_nl, hT5]
    simp only [List.cons_append, List.append_assoc]
  -- the ts member
  have h4 : parseF (m0 - 3) .members ('\n' :: T4) =
      some (.members ((String.mk ['t', 's'], .str ci.ts) ::
        [(String.mk ['a', 'l', 'i', 'a', 's', 'e', 's'],
          .arr (ci.aliases.map Json.str))]), rest) := by
    obtain ⟨m4, he4⟩ : ∃ k, m0 - 3 = k + 1 := ⟨m0 - 4, by omega⟩
    rw [he4]
    refine mem_cons (lvl + 1) _ _ T5 _ _ rest m4 keyParse_ts
      (val_str ci.ts _ _ m4 (by omega) (by rw [skipWs_space, skipWs_strLit]))
      (by rw [show m4 = m0 - 4 from by omega]; exact h5)
      ('\n' :: T4) ?_
    rw [skipWs_nl, hT4]
  -- the a member
  have h3 : parseF (m0 - 2) .members ('\n' :: T3) =
      some (.members ((String.mk ['a'], .str ci.a) ::
        (String.mk ['t', 's'], .str ci.ts) ::
        [(String.mk ['a', 'l', 'i', 'a', 's', 'e', 's'],
          .arr (ci.aliases.map Json.str))]), rest) := by
    obtain ⟨m3, he3⟩ : ∃ k, m0 - 2 = k + 1 := ⟨m0 - 3, by omega⟩
    rw [he3]
    refine mem_cons (lvl + 1) _ _ T4 _ _ rest m3 keyParse_a
      (val_str ci.a _ _ m3 (by omega) (by rw [skipWs_space, skipWs_strLit]))
      (by rw [show m3 = m0 - 3 from by omega]; exact h4)
      ('\n' :: T3) ?_
    rw [skipWs_nl, hT3]
  -- the q_norm member
  have h2 : parseF (m0 - 1) .members ('\n' :: T2) =
      some (.members ((String.mk ['q', '_', 'n', 'o', 'r', 'm'], .str ci.q_norm) ::
        (String.mk ['a'], .str ci.a) ::
        (String.mk ['t', 's'], .str ci.ts) ::
        [(String.mk ['a', 'l', 'i', 'a', 's', 'e', 's'],
          .arr (ci.aliases.map Json.str))]), rest) := by
    obtain ⟨m2, he2⟩ : ∃ k, m0 - 1 = k + 1 := ⟨m0 - 2, by omega⟩
    rw [he2]
    refine mem_cons (lvl + 1) _ _ T3 _ _ rest m2 keyParse_qnorm
      (val_str ci.q_norm _ _ m2 (by omega) (by rw [skipWs_space, skipWs_strLit]))
      (by rw [show m2 = m0 - 2 from by omega]; exact h3)
      ('\n' :: T2) ?_
    rw [skipWs_nl, hT2]
  -- the q member
  have h1 : parseF m0 .members ('\n' :: T1) =
      some (.members ((String.mk ['q'], .str ci.q) ::
        (String.mk ['q', '_', 'n', 'o', 'r', 'm'], .str ci.q_norm) ::
        (String.mk ['a'], .str ci.a) ::
        (String.mk ['t', 's'], .str ci.ts) ::
        [(String.mk ['a', 'l', 'i', 'a', 's', 'e', 's'],
          .arr (ci.aliases.map Json.str))]), rest) := by
    obtain ⟨m1, he1⟩ : ∃ k, m0 = k + 1 := ⟨m0 - 1, by omega⟩
    rw [he1]
    refine mem_cons (lvl + 1) _ _ T2 _ _ rest m1 keyParse_q
      (val_str ci.q _ _ m1 (by omega) (by rw [skipWs_space, skipWs_strLit]))
      (by rw [show m1 = m0 - 1 from by omega]; exact h2)
      ('\n' :: T1) ?_
    rw [skipWs_nl, hT1]
  -- assemble the object
  rw [parseF_val_eq, hin]
  have henc : encItem lvl ci ++ rest = '{' :: '\n' :: T1 := by
    rw [hT1, hT2, hT3, hT4, hT5, hM1, hM2, hM3, hM4, hM5]
    simp only [encItem, List.cons_append, List.append_assoc, List.nil_append]
  rw [henc]
  have hmem := h1
  rw [← parseF_members_skipWs m0 ('\n' :: T1)] at hmem
  have hsk : skipWs ('\n' :: T1) = '"' :: (['q'] ++ ('"' :: ':' :: ' ' ::
      (strLit ci.q ++ (',' :: '\n' :: T2)))) := by
    rw [skipWs_nl, hT1, hM1]
    simp only [memberLine, List.cons_append, List.append_assoc]
    rw [skipWs_indent]
    exact skipWs_not '"' (by rfl) _
  rw [hsk] at hmem
  simp only [List.cons_append, List.nil_append] at hmem
  simp [hmem, jsonOfItem, show String.mk ['q'] = "q" from rfl,
    show String.mk ['q', '_', 'n', 'o', 'r', 'm'] = "q_norm" from rfl,
    show String.mk ['a'] = "a" from rfl,
    show String.mk ['t', 's'] = "ts" from rfl,
    show String.mk ['a', 'l', 'i', 'a', 's', 'e', 's'] = "aliases" from rfl,
    hsk]

end CacheAgent

namespace CacheAgent

/-- The serialised continuation after one record line. -/
def itemTail (lvl : Nat) : List CacheItem → List Char
  | [] => []
  | b :: xs => ',' :: '\n' :: encItemLines lvl (b :: xs)

theorem encItemLines_cons (lvl : Nat) (b : CacheItem) (xs : List CacheItem) :
    encItemLines lvl (b :: xs) = indent lvl ++ (encItem lvl b ++ itemTail lvl xs) := by
  cases xs with
  | nil => simp [encItemLines, itemTail]
  | cons c xs => simp [encItemLines, itemTail]

theorem skipWs_encItem (lvl : Nat) (ci : CacheItem) (X : List Char) :
    skipWs (encItem lvl ci ++ X) = encItem lvl ci ++ X := by
  simp only [encItem, List.cons_append]
  exact skipWs_not '{' (by rfl) _

/-- Fuel needed to parse the serialised record list in element mode. -/
def itemsElemsFuel : List CacheItem → Nat
  | [] => 0
  | a :: xs => a.aliases.length + 10 + itemsElemsFuel xs

set_option maxHeartbeats 1000000 in
/-- Element-list parsing of the serialised records. -/
theorem elems_items (lvl : Nat) (a : CacheItem) (xs : List CacheItem)
    (lead ws rest : List Char) (m : Nat)
    (hlead : ∀ c ∈ lead, jsonWs c = true) (hws : ∀ c ∈ ws, jsonWs c = true)
    (hm : itemsElemsFuel (a :: xs) ≤ m) :
    parseF m .elems
        (lead ++ (encItem lvl a ++ (itemTail lvl xs ++ (ws ++ (']' :: rest))))) =
      some (.elems ((a :: xs).map jsonOfItem), rest) := by
  induction xs generalizing a lead m with
  | nil =>
    obtain ⟨m', rfl⟩ : ∃ k, m = k + 1 :=
      ⟨m - 1, by simp only [itemsElemsFuel] at hm; omega⟩
    rw [parseF_elems_eq]
    rw [val_item lvl a _ (ws ++ (']' :: rest)) m'
      (by simp only [itemsElemsFuel] at hm; omega)
      (by rw [skipWs_append_ws hlead]
          simp only [itemTail, List.nil_append]
          exact skipWs_encItem lvl a _)]
    dsimp only
    rw [skipWs_append_ws hws, skipWs_not ']' (by rfl)]
    rfl
  | cons b xs ih =>
    obtain ⟨m', rfl⟩ : ∃ k, m = k + 1 :=
      ⟨m - 1, by simp only [itemsElemsFuel] at hm; omega⟩
    rw [parseF_elems_eq]
    rw [val_item lvl a _ (itemTail lvl (b :: xs) ++ (ws ++ (']' :: rest))) m'
      (by simp only [itemsElemsFuel] at hm; omega)
      (by rw [skipWs_append_ws hlead]
          exact skipWs_encItem lvl a _)]
    dsimp only
    simp only [itemTail, List.cons_append]
    rw [skipWs_not ',' (by rfl)]
    have hrec := ih b ('\n' :: indent lvl) m'
      (by intro c hc
          rcases List.mem_cons.mp hc with rfl | hc
          · rfl
          · rw [List.eq_of_mem_replicate hc]; rfl)
      (by simp only [itemsElemsFuel] at hm ⊢; omega)
    rw [encItemLines_cons]
    simp only [List.append_assoc, List.cons_append] at hrec ⊢
    rw [hrec]
    simp

end CacheAgent

namespace CacheAgent

set_option maxHeartbeats 1000000 in
/-- The serialised record array parses back to the record objects. -/
theorem val_items (lvl : Nat) (items : List CacheItem) (input rest : List Char)
    (m : Nat) (hm : itemsElemsFuel items + 2 ≤ m)
    (hin : skipWs input = encItemsArr lvl items ++ rest) :
    parseF m .val input = some (.val (.arr (items.map jsonOfItem)), rest) := by
  obtain ⟨m', rfl⟩ : ∃ k, m = k + 1 := ⟨m - 1, by omega⟩
  rw [parseF_val_eq, hin]
  cases items with
  | nil =>
    simp only [encItemsArr, List.cons_append, List.nil_append]
    rw [skipWs_not ']' (by rfl)]
    rfl
  | cons a xs =>
    simp only [encItemsArr, List.cons_append, List.append_assoc, List.nil_append]
    have hs : skipWs ('\n' :: (encItemLines (lvl + 1) (a :: xs) ++
        ('\n' :: (indent lvl ++ (']' :: rest))))) =
        encItem (lvl + 1) a ++ (itemTail (lvl + 1) xs ++
          ('\n' :: (indent lvl ++ (']' :: rest)))) := by
      rw [skipWs_nl, encItemLines_cons, List.append_assoc, skipWs_indent,
        List.append_assoc, skipWs_encItem]
    rw [hs]
    have he := elems_items (lvl + 1) a xs [] ('\n' :: indent lvl)
      (']' :: rest).tail m'
      (fun c hc => absurd hc (List.not_mem_nil c))
      (by intro c hc
          rcases List.mem_cons.mp hc with rfl | hc
          · rfl
          · rw [List.eq_of_mem_replicate hc]; rfl)
      (by simp only [itemsElemsFuel] at hm ⊢; omega)
    simp only [List.nil_append, List.cons_append, List.tail_cons] at he
    simp only [encItem, List.cons_append, List.append_assoc, List.nil_append] at he ⊢
    show (match parseF m' PMode.elems ('{' :: '\n' ::
        (memberLine (lvl + 1 + 1) ['q'] (strLit a.q) ++ ',' :: '\n' ::
          (memberLine (lvl + 1 + 1) ['q', '_', 'n', 'o', 'r', 'm'] (strLit a.q_norm) ++ ',' :: '\n' ::
            (memberLine (lvl + 1 + 1) ['a'] (strLit a.a) ++ ',' :: '\n' ::
              (memberLine (lvl + 1 + 1) ['t', 's'] (strLit a.ts) ++ ',' :: '\n' ::
                (memberLine (lvl + 1 + 1) ['a', 'l', 'i', 'a', 's', 'e', 's']
                    (encAliases (lvl + 1 + 1) a.aliases) ++ '\n' ::
                  (indent (lvl + 1) ++ '}' ::
                    (itemTail (lvl + 1) xs ++ '\n' ::
                      (indent lvl ++ ']' :: rest))))))))) with
      | some (PRes.elems js, r) => some (PRes.val (Json.arr js), r)
      | _ => none) =
      some (PRes.val (Json.arr (List.map jsonOfItem (a :: xs))), rest)
    rw [he]

end CacheAgent

namespace CacheAgent

theorem skipWs_encItemsArr (lvl : Nat) (items : List CacheItem) (X : List Char) :
    skipWs (encItemsArr lvl items ++ X) = encItemsArr lvl items ++ X := by
  cases items with
  | nil => simp only [encItemsArr, List.cons_append]; exact skipWs_not '[' (by rfl) _
  | cons a ys => simp only [encItemsArr, List.cons_append]; exact skipWs_not '[' (by rfl) _

/-- Fuel sufficient to parse a serialised store. -/
def storeFuel (S : List CacheItem) : Nat := itemsElemsFuel S + 6

set_option maxHeartbeats 2000000 in
/-- The serialised store parses back to its JSON value. -/
theorem val_store (S : List CacheItem) (input rest : List Char) (m : Nat)
    (hm : storeFuel S ≤ m)
    (hin : skipWs input = encodeStore S ++ rest) :
    parseF m .val input = some (.val (jsonOfStore S), rest) := by
  simp only [storeFuel] at hm
  obtain ⟨m0, rfl⟩ : ∃ k, m = k + 1 := ⟨m - 1, by omega⟩
  set T2s := memberLine 1 ['i', 't', 'e', 'm', 's'] (encItemsArr 1 S) ++
    ('\n' :: ('}' :: rest)) with hT2s
  set T1s := memberLine 1 ['v', 'e', 'r', 's', 'i', 'o', 'n'] ['1'] ++
    (',' :: '\n' :: T2s) with hT1s
  have hItems : parseF (m0 - 1) .members ('\n' :: T2s) =
      some (.members [(String.mk ['i', 't', 'e', 'm', 's'],
        .arr (S.map jsonOfItem))], rest) := by
    obtain ⟨mI, heI⟩ : ∃ k, m0 - 1 = k + 1 := ⟨m0 - 2, by omega⟩
    rw [heI]
    have hv : parseF mI .val
        (' ' :: (encItemsArr 1 S ++ ('\n' :: ('}' :: rest)))) =
        some (.val (.arr (S.map jsonOfItem)), '\n' :: ('}' :: rest)) :=
      val_items 1 S _ _ mI (by omega)
        (by rw [skipWs_space]; exact skipWs_encItemsArr 1 S _)
    refine mem_last 1 ['i', 't', 'e', 'm', 's'] (encItemsArr 1 S) ['\n'] rest
      (.arr (S.map jsonOfItem)) mI keyParse_items hv
      (by intro c hc
          rcases List.mem_cons.mp hc with rfl | hc
          · rfl
          · exact absurd hc (List.not_mem_nil c))
      ('\n' :: T2s) ?_
    rw [skipWs_nl, hT2s]
    simp only [List.singleton_append, List.cons_append, List.append_assoc,
      List.nil_append]
  have hVer : parseF m0 .members ('\n' :: T1s) =
      some (.members ((String.mk ['v', 'e', 'r', 's', 'i', 'o', 'n'], .num 1) ::
        [(String.mk ['i', 't', 'e', 'm', 's'], .arr (S.map jsonOfItem))]), rest) := by
    obtain ⟨mV, heV⟩ : ∃ k, m0 = k + 1 := ⟨m0 - 1, by omega⟩
    rw [heV]
    have hv : parseF mV .val (' ' :: (['1'] ++ (',' :: '\n' :: T2s))) =
        some (.val (.num 1), ',' :: '\n' :: T2s) :=
      val_one _ _ mV (by omega)
        (by rw [skipWs_space, List.singleton_append]
            exact skipWs_not '1' (by rfl) _)
    refine mem_cons 1 ['v', 'e', 'r', 's', 'i', 'o', 'n'] ['1'] T2s (.num 1)
      [(String.mk ['i', 't', 'e', 'm', 's'], .arr (S.map jsonOfItem))] rest mV
      keyParse_version hv
      (by rw [show mV = m0 - 1 from by omega]; exact hItems)
      ('\n' :: T1s) ?_
    rw [skipWs_nl, hT1s]
  rw [parseF_val_eq, hin]
  have henc : encodeStore S ++ rest = '{' :: '\n' :: T1s := by
    rw [hT1s, hT2s]
    simp only [encodeStore, List.cons_append, List.append_assoc, List.nil_append]
  rw [henc]
  have hmem := hVer
  rw [← parseF_members_skipWs m0 ('\n' :: T1s)] at hmem
  have hsk : skipWs ('\n' :: T1s) = '"' :: (['v', 'e', 'r', 's', 'i', 'o', 'n'] ++
      ('"' :: ':' :: ' ' :: (['1'] ++ (',' :: '\n' :: T2s)))) := by
    rw [skipWs_nl, hT1s]
    simp only [memberLine, List.cons_append, List.append_assoc]
    rw [skipWs_indent]
    exact skipWs_not '"' (by rfl) _
  rw [hsk] at hmem
  simp only [List.cons_append, List.nil_append] at hmem
  simp [hmem, jsonOfStore,
    show String.mk ['v', 'e', 'r', 's', 'i', 'o', 'n'] = "version" from rfl,
    show String.mk ['i', 't', 'e', 'm', 's'] = "items" from rfl, hsk]

end CacheAgent

namespace CacheAgent

theorem escChar_len (c : Char) : 1 ≤ (escChar c).length := by
  unfold escChar
  repeat' split
  all_goals simp

theorem strLit_len (s : String) : 2 ≤ (strLit s).length := by
  simp [strLit]

theorem memberLine_len (lvl : Nat) (key val : List Char) :
    val.length + 4 ≤ (memberLine lvl key val).length := by
  simp [memberLine]
  omega

theorem encAliasLines_len (lvl : Nat) (xs : List String) :
    xs.length ≤ (encAliasLines lvl xs).length := by
  induction xs with
  | nil => simp [encAliasLines]
  | cons a xs ih =>
    cases xs with
    | nil =>
      have := strLit_len a
      simp only [encAliasLines, List.length_append, List.length_cons,
        List.length_nil]
      omega
    | cons b ys =>
      have := strLit_len a
      simp only [encAliasLines, List.length_append, List.length_cons] at ih ⊢
      omega

theorem encAliases_len (lvl : Nat) (xs : List String) :
    xs.length + 2 ≤ (encAliases lvl xs).length := by
  cases xs with
  | nil => simp [encAliases]
  | cons a ys =>
    have h := encAliasLines_len (lvl + 1) (a :: ys)
    simp only [List.length_cons] at h
    simp only [encAliases, List.length_cons, List.length_append]
    omega

theorem encItem_len (lvl : Nat) (ci : CacheItem) :
    ci.aliases.length + 11 ≤ (encItem lvl ci).length := by
  have h1 := strLit_len ci.q
  have h2 := strLit_len ci.q_norm
  have h3 := strLit_len ci.a
  have h4 := strLit_len ci.ts
  have h5 := encAliases_len (lvl + 1) ci.aliases
  have m1 := memberLine_len (lvl + 1) ['q'] (strLit ci.q)
  have m2 := memberLine_len (lvl + 1) ['q', '_', 'n', 'o', 'r', 'm'] (strLit ci.q_norm)
  have m3 := memberLine_len (lvl + 1) ['a'] (strLit ci.a)
  have m4 := memberLine_len (lvl + 1) ['t', 's'] (strLit ci.ts)
  have m5 := memberLine_len (lvl + 1) ['a', 'l', 'i', 'a', 's', 'e', 's']
    (encAliases (lvl + 1) ci.aliases)
  simp only [encItem, List.length_cons, List.length_append]
  omega

theorem encItemLines_len (lvl : Nat) (xs : List CacheItem) :
    itemsElemsFuel xs ≤ (encItemLines lvl xs).length := by
  induction xs with
  | nil => simp [itemsElemsFuel, encItemLines]
  | cons a xs ih =>
    cases xs with
    | nil =>
      have := encItem_len lvl a
      simp [itemsElemsFuel, encItemLines]
      omega
    | cons b ys =>
      have := encItem_len lvl a
      simp only [itemsElemsFuel, encItemLines, List.length_append,
        List.length_cons] at ih ⊢
      omega

theorem storeFuel_le_len (S : List CacheItem) :
    storeFuel S ≤ (encodeStore S).length + 1 := by
  have harr : itemsElemsFuel S ≤ (encItemsArr 1 S).length := by
    cases S with
    | nil => simp [itemsElemsFuel, encItemsArr]
    | cons a xs =>
      have := encItemLines_len (1 + 1) (a :: xs)
      simp only [encItemsArr, List.length_cons, List.length_append]
      omega
  have hm2 := memberLine_len 1 ['i', 't', 'e', 'm', 's'] (encItemsArr 1 S)
  simp only [storeFuel, encodeStore, List.length_cons, List.length_append]
  omega

end CacheAgent

namespace CacheAgent

theorem rstripJunk_last (ys : List Char) (c : Char) (h : stripSet c = false) :
    rstripJunk (ys ++ [c]) = ys ++ [c] := by
  unfold rstripJunk
  rw [List.reverse_append]
  simp only [List.reverse_cons, List.reverse_nil, List.nil_append,
    List.singleton_append, List.dropWhile_cons, h]
  simp

theorem encodeStore_shape (S : List CacheItem) :
    encodeStore S =
      ('{' :: '\n' :: (memberLine 1 ['v', 'e', 'r', 's', 'i', 'o', 'n'] ['1'] ++
        (',' :: '\n' :: (memberLine 1 ['i', 't', 'e', 'm', 's']
          (encItemsArr 1 S) ++ ['\n'])))) ++ ['}'] := by
  simp [encodeStore]

theorem rstripJunk_encodeStore (S : List CacheItem) :
    rstripJunk (encodeStore S) = encodeStore S := by
  rw [encodeStore_shape]
  exact rstripJunk_last _ '}' (by rfl)

theorem encodeStore_ne_empty (S : List CacheItem) :
    (encodeStore S).isEmpty = false := by
  simp [encodeStore]

theorem skipWs_encodeStore (S : List CacheItem) :
    skipWs (encodeStore S) = encodeStore S := by
  simp only [encodeStore]
  exact skipWs_not '{' (by rfl) _

/-- json.loads round trip on the serialised store. -/
theorem loads_encodeStore (S : List CacheItem) :
    loads (encodeStore S) = some (jsonOfStore S) := by
  unfold loads
  rw [val_store S (encodeStore S) [] ((encodeStore S).length + 1)
    (le_trans (storeFuel_le_len S) (by omega))
    (by rw [List.append_nil]; exact skipWs_encodeStore S)]
  rfl

/-- The tolerant reader decodes the serialised store. -/
theorem readBytes_encodeStore (S : List CacheItem) :
    readBytesTolerant (encodeStore S) = some (jsonOfStore S) := by
  unfold readBytesTolerant
  simp only [rstripJunk_encodeStore, encodeStore_ne_empty, loads_encodeStore,
    Bool.false_eq_true, if_false]

theorem filterMap_str (xs : List String) :
    List.filterMap
      ((fun j => match j with | Json.str s => some s | _ => none) ∘ Json.str)
      xs = xs := by
  induction xs with
  | nil => rfl
  | cons a xs ih => simp [List.filterMap_cons, ih]

/-- One comprehension step on a well-formed serialised record is exactly a
dict insertion of that record under its fingerprint. -/
theorem loadStep_jsonOfItem (acc : Cache) (r : CacheItem) (h : r.q_norm ≠ "") :
    loadStep acc (jsonOfItem r) = dictInsert acc r.q_norm r := by
  unfold loadStep jsonOfItem
  dsimp only
  have e1 : itemStr [("q", Json.str r.q), ("q_norm", Json.str r.q_norm),
      ("a", Json.str r.a), ("ts", Json.str r.ts),
      ("aliases", Json.arr (r.aliases.map Json.str))] "q_norm" = r.q_norm := by
    simp [itemStr, jlookup, List.find?]
  have e2 : itemStr [("q", Json.str r.q), ("q_norm", Json.str r.q_norm),
      ("a", Json.str r.a), ("ts", Json.str r.ts),
      ("aliases", Json.arr (r.aliases.map Json.str))] "q" = r.q := by
    simp [itemStr, jlookup, List.find?]
  have e3 : itemStr [("q", Json.str r.q), ("q_norm", Json.str r.q_norm),
      ("a", Json.str r.a), ("ts", Json.str r.ts),
      ("aliases", Json.arr (r.aliases.map Json.str))] "a" = r.a := by
    simp [itemStr, jlookup, List.find?]
  have e4 : itemStr [("q", Json.str r.q), ("q_norm", Json.str r.q_norm),
      ("a", Json.str r.a), ("ts", Json.str r.ts),
      ("aliases", Json.arr (r.aliases.map Json.str))] "ts" = r.ts := by
    simp [itemStr, jlookup, List.find?]
  have e5 : itemAliases [("q", Json.str r.q), ("q_norm", Json.str r.q_norm),
      ("a", Json.str r.a), ("ts", Json.str r.ts),
      ("aliases", Json.arr (r.aliases.map Json.str))] = r.aliases := by
    simp [itemAliases, jlookup, List.find?, filterMap_str]
  rw [e1, e2, e3, e4, e5, if_pos h]

theorem foldl_loadStep_map (S : List CacheItem) : ∀ acc : Cache,
    (∀ r ∈ S, r.q_norm ≠ "") →
    (S.map (fun r => r.q_norm)).Nodup →
    (∀ r ∈ S, List.any acc (fun p => p.1 == r.q_norm) = false) →
    (S.map jsonOfItem).foldl loadStep acc =
      acc ++ S.map (fun r => (r.q_norm, r)) := by
  induction S with
  | nil => intro acc _ _ _; simp
  | cons r S ih =>
    intro acc h1 h2 h3
    simp only [List.map_cons, List.foldl_cons]
    rw [loadStep_jsonOfItem acc r (h1 r (List.mem_cons_self r S))]
    have hfresh := h3 r (List.mem_cons_self r S)
    unfold dictInsert
    rw [if_neg (by simp [hfresh])]
    have h2' : r.q_norm ∉ S.map (fun x => x.q_norm) ∧
        (S.map (fun x => x.q_norm)).Nodup := by
      rw [List.map_cons, List.nodup_cons] at h2
      exact h2
    rw [ih (acc ++ [(r.q_norm, r)])
      (fun x hx => h1 x (List.mem_cons_of_mem r hx))
      h2'.2
      ?_]
    · simp
    · intro x hx
      simp only [List.any_append, List.any_cons, List.any_nil]
      have hxa := h3 x (List.mem_cons_of_mem r hx)
      have hne : (r.q_norm == x.q_norm) = false := by
        have hq : r.q_norm ≠ x.q_norm := fun he =>
          h2'.1 (List.mem_map.mpr ⟨x, hx, he.symm⟩)
        simp [hq]
      simp [hxa, hne]

/-- _load_cache applied to the decoded JSON of a well-formed store yields
exactly the records keyed by their fingerprints, in order. -/
theorem loadFromJson_jsonOfStore (S : List CacheItem)
    (h1 : ∀ r ∈ S, r.q_norm ≠ "")
    (h2 : (S.map (fun r => r.q_norm)).Nodup) :
    loadFromJson (jsonOfStore S) = S.map (fun r => (r.q_norm, r)) := by
  unfold loadFromJson jsonOfStore
  have hget : pyGetD (Json.obj [("version", Json.num 1),
      ("items", Json.arr (S.map jsonOfItem))]) "items" (Json.arr []) =
      some (Json.arr (S.map jsonOfItem)) := by
    simp [pyGetD, jlookup, List.find?]
  rw [hget]
  dsimp only
  rw [if_pos (by
    rw [List.all_eq_true]
    intro j hj
    obtain ⟨r, _, rfl⟩ := List.mem_map.mp hj
    rfl)]
  rw [foldl_loadStep_map S [] h1 h2 (fun r _ => rfl)]
  simp

end CacheAgent

namespace CacheAgent

/-- A well-formed store: every record carries a non-empty fingerprint
(records with a falsy fingerprint are not representable in the in-memory
dict) and fingerprints are pairwise distinct (the data-model invariant:
the fingerprint is the unique key of a record within a store). -/
def WFStore (S : List CacheItem) : Prop :=
  (∀ r ∈ S, r.q_norm ≠ "") ∧ (S.map (fun r => r.q_norm)).Nodup

/-- Decoding a store file: the tolerant read of _read_json_tolerant
followed by the record reconstruction of _load_cache; the record sequence
is the value sequence of the rebuilt dict. -/
def decodeStoreBytes (raw : List Char) : Option (List CacheItem) :=
  (readBytesTolerant raw).map (fun j => (loadFromJson j).map (fun p => p.2))

/-- Claim C7: decoding the bytes produced by encoding a well-formed store
yields the store back unchanged. -/
theorem c7_roundtrip (S : List CacheItem) (h : WFStore S) :
    decodeStoreBytes (encodeStore S) = some S := by
  unfold decodeStoreBytes
  rw [readBytes_encodeStore]
  dsimp only [Option.map]
  rw [loadFromJson_jsonOfStore S h.1 h.2, List.map_map,
    show ((fun p : String × CacheItem => p.2) ∘ fun r : CacheItem =>
      (r.q_norm, r)) = id from rfl, List.map_id]

theorem c7_witness :
    WFStore [⟨"Hi!", "hi!", "Yo", "t0", ["hi"]⟩,
             ⟨"Bye", "bye", "Ciao", "t1", []⟩] ∧
    decodeStoreBytes (encodeStore
      [⟨"Hi!", "hi!", "Yo", "t0", ["hi"]⟩,
       ⟨"Bye", "bye", "Ciao", "t1", []⟩]) =
      some [⟨"Hi!", "hi!", "Yo", "t0", ["hi"]⟩,
            ⟨"Bye", "bye", "Ciao", "t1", []⟩] :=
  ⟨⟨by decide, by decide⟩,
   c7_roundtrip _ ⟨by decide, by decide⟩⟩

end CacheAgent

namespace CacheAgent

/-- A record object of the shape the store format documents: a dict whose
q_norm field, when present, is a string. -/
def itemShaped (it : Json) : Bool :=
  match it with
  | .obj kvs =>
    (match jlookup kvs "q_norm" with
     | none => true
     | some (.str _) => true
     | some _ => false)
  | _ => false

/-- The primary fingerprint of a record object; absent or non-string
fields read as the empty string. -/
def itemFingerprint (it : Json) : String :=
  match it with
  | .obj kvs =>
    (match jlookup kvs "q_norm" with
     | some (.str s) => s
     | _ => "")
  | _ => ""

theorem itemShaped_ok {it : Json} (h : itemShaped it = true) : itemOk it = true := by
  cases it with
  | obj kvs =>
    simp only [itemShaped] at h
    simp only [itemOk]
    cases hq : jlookup kvs "q_norm" with
    | none => simp
    | some v =>
      rw [hq] at h
      cases v with
      | str s => simp [jsonFalsy, jsonHashable]
      | null => simp at h
      | bool b => simp at h
      | num n => simp at h
      | arr xs => simp at h
      | obj ys => simp at h
  | null => simp [itemShaped] at h
  | bool b => simp [itemShaped] at h
  | num n => simp [itemShaped] at h
  | str s => simp [itemShaped] at h
  | arr xs => simp [itemShaped] at h

theorem itemTruthyQn_shaped {it : Json} (h : itemShaped it = true) :
    itemTruthyQn it = if itemFingerprint it = "" then none
      else some (.str (itemFingerprint it)) := by
  cases it with
  | obj kvs =>
    simp only [itemShaped] at h
    simp only [itemTruthyQn, itemFingerprint]
    cases hq : jlookup kvs "q_norm" with
    | none => simp
    | some v =>
      rw [hq] at h
      cases v with
      | str s =>
        by_cases hs : s = ""
        · simp [jsonFalsy, hs]
        · simp [jsonFalsy, hs]
      | null => simp at h
      | bool b => simp at h
      | num n => simp at h
      | arr xs => simp at h
      | obj ys => simp at h
  | null => simp [itemShaped] at h
  | bool b => simp [itemShaped] at h
  | num n => simp [itemShaped] at h
  | str s => simp [itemShaped] at h
  | arr xs => simp [itemShaped] at h

/-- Membership of a non-empty fingerprint in the truthy fingerprints of a
shaped record list is plain membership among the fingerprints. -/
theorem any_scalarEq_fingerprints (dits : List Json) (s : String)
    (hshaped : ∀ it ∈ dits, itemShaped it = true) (hs : s ≠ "") :
    (List.filterMap itemTruthyQn dits).any (scalarEq (.str s)) =
      decide (s ∈ dits.map itemFingerprint) := by
  induction dits with
  | nil => simp
  | cons d ds ih =>
    have hd := hshaped d (List.mem_cons_self d ds)
    have ihd := ih (fun it hit => hshaped it (List.mem_cons_of_mem d hit))
    rw [List.filterMap_cons, itemTruthyQn_shaped hd]
    by_cases hfp : itemFingerprint d = ""
    · rw [if_pos hfp]
      simp only [List.map_cons, List.mem_cons]
      rw [ihd]
      have hne : ¬s = itemFingerprint d := fun he => hs (he.trans hfp)
      simp [hne]
    · rw [if_neg hfp]
      simp only [List.any_cons, List.map_cons, List.mem_cons]
      rw [ihd]
      by_cases he : s = itemFingerprint d
      · simp [scalarEq, he]
      · simp [scalarEq, he, fun h : itemFingerprint d = s => he h.symm]

end CacheAgent

namespace CacheAgent

set_option maxHeartbeats 1000000 in
/-- Claim C5 (amended): for decodable, well-shaped source and destination
stores, the merge appends to the destination exactly those source records
whose primary fingerprint is non-empty (truthy) and not already a primary
fingerprint in the destination, unmodified and in order, after all
existing destination records; when no such record exists the destination
file is left untouched.  Existing destination records are never removed
or mutated: they reappear as an unchanged initial segment. -/
theorem c5_merge_amended (srcF dstF : Option (List Char)) (sj dj : Json)
    (sits dits : List Json)
    (hs : readJsonTolerant srcF = some sj)
    (hsf : jsonFalsy sj = false)
    (hd : readJsonTolerant dstF = some dj)
    (hsi : pyGetD sj "items" (.arr []) = some (.arr sits))
    (hdi : pyGetD dj "items" (.arr []) = some (.arr dits))
    (hss : ∀ it ∈ sits, itemShaped it = true)
    (hds : ∀ it ∈ dits, itemShaped it = true) :
    (mergeCacheFiles srcF dstF).2 =
      (if (sits.filter (fun it =>
            decide (itemFingerprint it ≠ "" ∧
              itemFingerprint it ∉ dits.map itemFingerprint))).isEmpty then
        none
      else
        some (dumpJ (fileLen srcF + fileLen dstF + 8) 0
          (.obj [("version", .num 1),
                 ("items", .arr (dits ++ sits.filter (fun it =>
                   decide (itemFingerprint it ≠ "" ∧
                     itemFingerprint it ∉ dits.map itemFingerprint))))]))) := by
  have hfilter : sits.filter (fun it =>
      match itemTruthyQn it with
      | some v => !((List.filterMap itemTruthyQn dits).any (scalarEq v))
      | none => false) =
      sits.filter (fun it =>
        decide (itemFingerprint it ≠ "" ∧
          itemFingerprint it ∉ dits.map itemFingerprint)) := by
    apply List.filter_congr
    intro it hit
    rw [itemTruthyQn_shaped (hss it hit)]
    by_cases hfp : itemFingerprint it = ""
    · rw [if_pos hfp]
      simp [hfp]
    · rw [if_neg hfp]
      dsimp only
      rw [any_scalarEq_fingerprints dits (itemFingerprint it) hds hfp]
      by_cases hmem : itemFingerprint it ∈ dits.map itemFingerprint
      · simp [hmem]
      · simp [hmem, hfp]
  unfold mergeCacheFiles
  simp only [hs, hsf, hd, hsi, hdi, Bool.false_eq_true, if_false]
  rw [if_pos (by
    rw [Bool.and_eq_true, List.all_eq_true, List.all_eq_true]
    exact ⟨fun it hit => itemShaped_ok (hss it hit),
           fun it hit => itemShaped_ok (hds it hit)⟩)]
  rw [hfilter]
end CacheAgent

namespace CacheAgent

theorem readJsonTolerant_some (raw : List Char) :
    readJsonTolerant (some raw) = readBytesTolerant raw := rfl

set_option maxRecDepth 10000 in
/-- Claim C5, counterexample: a decodable source store holding one record
whose primary fingerprint (the empty string) is not present in the
decodable, empty destination store.  The claim requires that record to be
appended; the merge leaves the destination untouched, because records with
a falsy fingerprint are skipped regardless of the destination. -/
theorem c5_counterexample :
    ([jsonOfItem ⟨"Q?", "", "A", "t0", []⟩].filter (fun it =>
        decide (itemFingerprint it ∉
          List.map itemFingerprint ([] : List Json)))) =
      [jsonOfItem ⟨"Q?", "", "A", "t0", []⟩] ∧
    readJsonTolerant (some (encodeStore [⟨"Q?", "", "A", "t0", []⟩])) =
      some (jsonOfStore [⟨"Q?", "", "A", "t0", []⟩]) ∧
    readJsonTolerant (some (encodeStore [])) = some (jsonOfStore []) ∧
    (mergeCacheFiles (some (encodeStore [⟨"Q?", "", "A", "t0", []⟩]))
      (some (encodeStore []))).2 = none := by
  refine ⟨rfl, (readJsonTolerant_some _).trans (readBytes_encodeStore _),
    (readJsonTolerant_some _).trans (readBytes_encodeStore _), ?_⟩
  unfold mergeCacheFiles
  simp only [readJsonTolerant_some, readBytes_encodeStore]
  rfl

set_option maxRecDepth 10000 in
theorem c5_witness :
    jsonFalsy (jsonOfStore [⟨"q1", "q1", "A", "t", []⟩]) = false ∧
    (∀ it ∈ [jsonOfItem ⟨"q1", "q1", "A", "t", []⟩], itemShaped it = true) ∧
    (mergeCacheFiles (some (encodeStore [⟨"q1", "q1", "A", "t", []⟩]))
        (some (encodeStore [⟨"q2", "q2", "B", "t", []⟩]))).2 =
      (if ([jsonOfItem ⟨"q1", "q1", "A", "t", []⟩].filter (fun it =>
            decide (itemFingerprint it ≠ "" ∧
              itemFingerprint it ∉
                [jsonOfItem ⟨"q2", "q2", "B", "t", []⟩].map itemFingerprint))).isEmpty then
        none
      else
        some (dumpJ (fileLen (some (encodeStore [⟨"q1", "q1", "A", "t", []⟩])) +
            fileLen (some (encodeStore [⟨"q2", "q2", "B", "t", []⟩])) + 8) 0
          (.obj [("version", .num 1),
                 ("items", .arr ([jsonOfItem ⟨"q2", "q2", "B", "t", []⟩] ++
                   [jsonOfItem ⟨"q1", "q1", "A", "t", []⟩].filter (fun it =>
                     decide (itemFingerprint it ≠ "" ∧
                       itemFingerprint it ∉
                         [jsonOfItem ⟨"q2", "q2", "B", "t", []⟩].map itemFingerprint))))]))) :=
  ⟨by decide, by decide,
   c5_merge_amended _ _ _ _ _ _
     ((readJsonTolerant_some _).trans (readBytes_encodeStore _)) rfl
     ((readJsonTolerant_some _).trans (readBytes_encodeStore _))
     rfl rfl (by decide) (by decide)⟩

end CacheAgent
